import Mathlib

/-!
Verification development for the MCP-Code-Review-Agent review pipeline.

The TypeScript sources are shallowly embedded in Lean: JavaScript strings
become lists of Unicode scalar characters (`Str`), promises that have
settled become `Except` values, and calls into external facilities
(the JS `RegExp` engine, the filesystem, the analysis backends) become
explicit function parameters.  Every definition is translated from the
corresponding source function; doc comments name the source location.
-/

namespace CodeReview

/-- JavaScript strings are modelled as lists of Unicode scalar characters. -/
abbrev Str := List Char

/-- `String.prototype.toLowerCase`, as used for ASCII path and extension
folding (`Char.toLower` lowercases exactly the ASCII letters). -/
def jsToLower (s : Str) : Str := s.map Char.toLower

/-- Whitespace recognised by `String.prototype.trim` (the ASCII subset;
porcelain status lines contain only ASCII whitespace). -/
def isJsWhitespace (c : Char) : Bool :=
  c == ' ' || c == '\t' || c == '\n' || c == '\r' || c == '\x0b' || c == '\x0c'

/-- `String.prototype.trim`. -/
def jsTrim (s : Str) : Str :=
  ((s.dropWhile isJsWhitespace).reverse.dropWhile isJsWhitespace).reverse

/-- `String.prototype.split` with a single-character separator. -/
def splitOnChar (sep : Char) : Str → List Str
  | [] => [[]]
  | c :: rest =>
    let r := splitOnChar sep rest
    if c = sep then [] :: r
    else
      match r with
      | [] => [[c]]
      | h :: t => (c :: h) :: t

/-- Decimal rendering of a number, as produced by JS template-literal
interpolation of a nonnegative integer. -/
def natRepr (n : Nat) : Str := (Nat.repr n).toList

/-! ## ConcurrentFileProcessor (src/infrastructure/processing/ConcurrentFileProcessor.ts) -/

/-- `Promise.all` over a list of already-settled promises: rejects when any
element rejects (the surfaced rejection is the first one in submission
order; none of the theorems below depend on which rejection is surfaced),
and resolves to the list of values otherwise. -/
def promiseAll : List (Except Str α) → Except Str (List α)
  | [] => .ok []
  | p :: rest =>
    match p with
    | .error e => .error e
    | .ok v =>
      match promiseAll rest with
      | .error e => .error e
      | .ok vs => .ok (v :: vs)

/-- `ConcurrentFileProcessor.processFiles`.  Each per-file task is mapped
over the file list; a task rejection is caught and rethrown wrapped in an
`Error` naming the file, and the wrapped promises are passed to
`Promise.all`.  `pLimit` only schedules the tasks (the settled outcome of
`processor` on each path is modelled by its `Except` value), so the clamp
of the concurrency limit does not influence the settled results. -/
def processFiles (files : List Str) (processor : Str → Except Str α)
    (concurrencyLimit : Int) : Except Str (List α) :=
  let cl : Int := if concurrencyLimit = 0 then 1 else concurrencyLimit
  let _max : Int := max 1 (min 64 cl)
  let promises := files.map (fun filePath =>
    match processor filePath with
    | .ok r => Except.ok r
    | .error e =>
      Except.error (("Failed processing ").toList ++ filePath ++ (": ").toList ++ e))
  promiseAll promises

/-! ## FileSuitabilityChecker (src/domain/entities.ts) -/

/-- `AnalysisConfig` (src/domain/ports.ts). -/
structure AnalysisConfig where
  maxFileSize : Nat
  maxLines : Nat
  maxFunctions : Nat
  maxClasses : Nat
  concurrency : Nat
  supportedExtensions : List Str
  excludedPatterns : List Str

/-- The JS `RegExp` engine, modelled as an abstract parameter: `test p s`
is `new RegExp(p, "i").test(s)` and `countMatches p s` is
`(s.match(new RegExp(p, "g")) || []).length`. -/
structure RegexEngine where
  test : Str → Str → Bool
  countMatches : Str → Str → Nat

/-- `SuitabilityResult` (src/domain/ports.ts). -/
structure SuitabilityResult where
  suitable : Bool
  reason : Option Str
deriving DecidableEq

/-- UTF-8 size in bytes of one scalar value. -/
def utf8CharSize (c : Char) : Nat :=
  if c.toNat < 128 then 1
  else if c.toNat < 2048 then 2
  else if c.toNat < 65536 then 3
  else 4

/-- `Buffer.byteLength(content, "utf8")`: UTF-8 byte length of a string. -/
def utf8ByteLength (s : Str) : Nat := s.foldl (fun n c => n + utf8CharSize c) 0

/-- The function-counting regex source used by the checker. -/
def functionRegexSource : Str := ("\\bfunction\\s+\\w+|\\bconst\\s+\\w+\\s*=\\s*\\(").toList

/-- The class-counting regex source used by the checker. -/
def classRegexSource : Str := ("\\bclass\\s+\\w+").toList

/-- `FileSuitabilityChecker.check` (src/domain/entities.ts): extension
allowlist, exclusion patterns, byte-size, line-count, function-count and
class-count checks, in this order, short-circuiting on first failure. -/
def FileSuitabilityChecker.check (eng : RegexEngine) (config : AnalysisConfig)
    (path content : Str) : SuitabilityResult :=
  let hasValidExtension := config.supportedExtensions.any
    (fun ext => (jsToLower ext).isSuffixOf (jsToLower path))
  if !hasValidExtension then ⟨false, some (("Unsupported file type").toList)⟩
  else
    let isExcluded := config.excludedPatterns.any (fun pattern => eng.test pattern path)
    if isExcluded then ⟨false, some (("File matches excluded pattern").toList)⟩
    else
      let contentBytes := utf8ByteLength content
      if contentBytes > config.maxFileSize then
        ⟨false, some (("File too large (").toList ++ natRepr contentBytes ++
          (" bytes > ").toList ++ natRepr config.maxFileSize ++ (" bytes)").toList)⟩
      else
        let lines := (splitOnChar '\n' content).length
        if lines > config.maxLines then
          ⟨false, some (("Too many lines (").toList ++ natRepr lines ++
            (" > ").toList ++ natRepr config.maxLines ++ (")").toList)⟩
        else
          let functionCount := eng.countMatches functionRegexSource content
          if functionCount > config.maxFunctions then
            ⟨false, some (("Too many functions (").toList ++ natRepr functionCount ++
              (" > ").toList ++ natRepr config.maxFunctions ++ (")").toList)⟩
          else
            let classCount := eng.countMatches classRegexSource content
            if classCount > config.maxClasses then
              ⟨false, some (("Too many classes (").toList ++ natRepr classCount ++
                (" > ").toList ++ natRepr config.maxClasses ++ (")").toList)⟩
            else ⟨true, none⟩

/-! ## NodeGitClient (src/infrastructure/git/NodeGitClient.ts) -/

/-- The four porcelain-derived path lists of `GitStatus`. -/
structure GitStatusLists where
  staged : List Str
  modified : List Str
  untracked : List Str
  deleted : List Str
deriving DecidableEq

/-- One iteration of the porcelain parsing loop in `NodeGitClient.status`:
`status = line.slice(0, 2)`, `path = line.slice(3)`,
`[stagedStatus, workingStatus] = status.split("")` (a missing character is
`undefined`, modelled as `none`), followed by the four classification
appends. -/
def classifyStatusLine (acc : GitStatusLists) (line : Str) : GitStatusLists :=
  let status := line.take 2
  let path := line.drop 3
  let stagedStatus := status.get? 0
  let workingStatus := status.get? 1
  let acc :=
    if (match stagedStatus with
        | some c => c == 'A' || c == 'M' || c == 'R'
        | none => false) then
      { acc with staged := acc.staged ++ [path] }
    else acc
  let acc :=
    if workingStatus == some 'M' then
      { acc with modified := acc.modified ++ [path] }
    else acc
  let acc :=
    if stagedStatus == some '?' && workingStatus == some '?' then
      { acc with untracked := acc.untracked ++ [path] }
    else acc
  let acc :=
    if stagedStatus == some 'D' || workingStatus == some 'D' then
      { acc with deleted := acc.deleted ++ [path] }
    else acc
  acc

/-- The porcelain parsing stage of `NodeGitClient.status`:
`porcelain.split("\n").filter((line) => line.trim())` followed by the
classification loop. -/
def parsePorcelain (porcelain : Str) : GitStatusLists :=
  ((splitOnChar '\n' porcelain).filter
    (fun line => !(jsTrim line).isEmpty)).foldl classifyStatusLine ⟨[], [], [], []⟩

/-- `GitStatus` (src/domain/ports.ts). -/
structure GitStatus where
  branch : Str
  ahead : Nat
  behind : Nat
  staged : List Str
  modified : List Str
  untracked : List Str
  deleted : List Str
deriving DecidableEq

/-- Digits-only decimal parse; `none` on any non-digit input. -/
def parseDecNat (s : Str) : Option Nat :=
  if s ≠ [] ∧ s.all (fun c => c.isDigit) then
    some (s.foldl (fun n c => n * 10 + (c.toNat - 48)) 0)
  else none

/-- `Number(x) || 0` as applied to the entries of
`ab.split("\t")`: a missing entry (`undefined`) or a non-numeric entry
(`NaN`) collapses to 0. -/
def jsNumberOr0 (o : Option Str) : Nat :=
  match o with
  | none => 0
  | some s => (parseDecNat s).getD 0

/-- `NodeGitClient.status`, over the settled outcomes of its three
subprocess invocations (branch query, ahead/behind query, porcelain query).
The ahead/behind query failure is swallowed to 0/0; any other subprocess
error is caught by the surrounding try/catch and re-raised as
`Git command execution failed: ` followed by the underlying error message. -/
def statusModel (branchRes abRes porcelainRes : Except Str Str) :
    Except Str GitStatus :=
  match branchRes with
  | .error e => .error (("Git command execution failed: ").toList ++ e)
  | .ok branchRaw =>
    let branch := jsTrim branchRaw
    let ab :=
      match abRes with
      | .error _ => (0, 0)
      | .ok abRaw =>
        let parts := splitOnChar '\t' (jsTrim abRaw)
        (jsNumberOr0 (parts.get? 0), jsNumberOr0 (parts.get? 1))
    match porcelainRes with
    | .error e => .error (("Git command execution failed: ").toList ++ e)
    | .ok porcelain =>
      let lists := parsePorcelain porcelain
      .ok { branch := branch, ahead := ab.2, behind := ab.1,
            staged := lists.staged, modified := lists.modified,
            untracked := lists.untracked, deleted := lists.deleted }

/-! ## filesForReview (src/infrastructure/git/NodeGitClient.ts) -/

/-- `ReviewType` (src/domain/ports.ts). -/
inductive ReviewType where
  | staged
  | modified
  | full

/-- The TypeScript-file filter `/\.(ts|tsx)$/i.test(file)`: a
case-insensitive match of an ASCII-literal suffix is a suffix check on the
lowercase-folded string. -/
def tsExtensionTest (file : Str) : Bool :=
  (".ts").toList.isSuffixOf (jsToLower file)
  || (".tsx").toList.isSuffixOf (jsToLower file)

/-- `Array.from(new Set(xs))`: deduplication keeping the first occurrence
of each element, in insertion order. -/
def dedupFirst (l : List Str) : List Str :=
  l.foldl (fun acc f => if f ∈ acc then acc else acc ++ [f]) []

/-- `NodeGitClient.filesForReview`, given the status snapshot produced by
`status()`: selects the changed-path lists for the review type,
filters to TypeScript files, lowercase-folds and deduplicates. -/
def filesForReview (gitStatus : GitStatus) (t : ReviewType) : List Str :=
  let files := match t with
    | .staged => gitStatus.staged
    | .modified => gitStatus.staged ++ gitStatus.modified
    | .full => gitStatus.staged ++ gitStatus.modified ++ gitStatus.untracked
  let tsFiles := files.filter tsExtensionTest
  dedupFirst (tsFiles.map jsToLower)

/-! ## Node `path` (posix) and SafePathPolicy
(src/infrastructure/path/SafePathPolicy.ts)

The policy runs on `process.platform = "linux"`, so the win32 lowercase
folding branches are inactive.  Node's posix `path.normalize` and
`path.resolve` are embedded following `lib/path.js`: paths are split on
`/`, the segments are folded left-to-right resolving `.` and `..`
(`..` above the root is dropped for absolute inputs and kept for relative
ones), and the segments are rejoined with `/`. -/

/-- `Array.prototype.join("/")` over path segments. -/
def joinSegs : List Str → Str
  | [] => []
  | [x] => x
  | x :: y :: xs => x ++ '/' :: joinSegs (y :: xs)

/-- An absolute path built from canonical segments: `/` + segments joined
with `/`. -/
def mkAbs (segs : List Str) : Str := '/' :: joinSegs segs

/-- One step of Node's `normalizeString` segment fold: skip empty and `.`
segments; on `..` pop the last segment unless there is none or it is itself
`..`, in which case keep the `..` only when `allowAboveRoot`. -/
def normalizeStep (allowAboveRoot : Bool) (acc : List Str) (seg : Str) : List Str :=
  if seg = [] ∨ seg = ['.'] then acc
  else if seg = ['.', '.'] then
    if acc ≠ [] ∧ acc.getLast? ≠ some ['.', '.'] then acc.dropLast
    else if allowAboveRoot then acc ++ [seg]
    else acc
  else acc ++ [seg]

/-- Node's `normalizeString`: fold the raw `/`-split segments. -/
def normalizeSegs (allowAboveRoot : Bool) (segs : List Str) : List Str :=
  segs.foldl (normalizeStep allowAboveRoot) []

/-- The raw `/`-split of a path. -/
def posixSegs (s : Str) : List Str := splitOnChar '/' s

/-- `path.isAbsolute` (posix). -/
def isAbsolute (s : Str) : Bool := s.head? == some '/'

/-- `path.resolve(p)` for one absolute argument: `/` + the `..`-resolved
segments, no trailing separator. -/
def nodeResolve1 (p : Str) : Str := mkAbs (normalizeSegs false (posixSegs p))

/-- `path.resolve(base, input)` for an absolute `base` (every call site of
the policy passes an absolute base; for a relative base Node would prepend
the process working directory). -/
def nodeResolve (base input : Str) : Str :=
  if isAbsolute input then nodeResolve1 input
  else nodeResolve1 (base ++ '/' :: input)

/-- `path.normalize` (posix): resolves `.` and `..` segments (keeping
above-root `..` for relative paths), collapses separators, preserves one
trailing separator, and returns `.` for an empty result. -/
def posixNormalize (s : Str) : Str :=
  if s = [] then ['.']
  else
    let isAbs := isAbsolute s
    let trailing := s.getLast? == some '/'
    let segs := normalizeSegs (!isAbs) (posixSegs s)
    let body := joinSegs segs
    if body = [] then
      if isAbs then ['/']
      else if trailing then ['.', '/'] else ['.']
    else
      let body2 := if trailing then body ++ ['/'] else body
      if isAbs then '/' :: body2 else body2

/-- `base.replace(/\\/g, "/")`. -/
def backslashToSlash (s : Str) : Str := s.map (fun c => if c = '\\' then '/' else c)

/-- `SafePathPolicy.isWithin` on linux: separator-normalise both paths,
append a trailing separator to the base unless present, then a plain
string-prefix check (no case folding off win32). -/
def isWithin (base target : Str) : Bool :=
  let normalizedBase := backslashToSlash base
  let normalizedTarget := backslashToSlash target
  let baseWithSep :=
    if normalizedBase.getLast? == some '/' then normalizedBase
    else normalizedBase ++ ['/']
  baseWithSep.isPrefixOf normalizedTarget

/-- `SafePathPolicy.segmentsEqual` on linux: the length check plus the
element-wise comparison loop amount to list equality (no case folding). -/
def segmentsEqual (s1 s2 : List Str) : Bool := s1 == s2

/-- `path.split(/[/\\]/).filter(Boolean)` as used by
`SafePathPolicy.resolve`. -/
def splitPathSegments (s : Str) : List Str :=
  (splitOnChar '/' (backslashToSlash s)).filter (fun t => t ≠ [])

/-- The overlap search loop of `SafePathPolicy.resolve`: the largest
`len ≤ n` with `baseSegments.slice(-len)` equal to
`inputSegments.slice(0, len)`, else 0. -/
def findOverlapFrom (baseSegments inputSegments : List Str) : Nat → Nat
  | 0 => 0
  | n + 1 =>
    if segmentsEqual (baseSegments.drop (baseSegments.length - (n + 1)))
        (inputSegments.take (n + 1)) then n + 1
    else findOverlapFrom baseSegments inputSegments n

/-- `overlapLength` in `SafePathPolicy.resolve`, scanning lengths from
`min(baseSegments.length, inputSegments.length)` down to 1. -/
def findOverlap (baseSegments inputSegments : List Str) : Nat :=
  findOverlapFrom baseSegments inputSegments
    (min baseSegments.length inputSegments.length)

/-- `SafePathPolicy.resolve` (the `PathTraversalError` is modelled as the
`Except.error` carrying the thrown message). -/
def safeResolve (basePath inputPath : Str) : Except Str Str :=
  let normalizedBase := posixNormalize (nodeResolve1 basePath)
  let resolvedPath :=
    if isAbsolute inputPath then posixNormalize inputPath
    else
      let normalizedInput := posixNormalize inputPath
      let baseSegments := splitPathSegments normalizedBase
      let inputSegments := splitPathSegments normalizedInput
      let overlapLength := findOverlap baseSegments inputSegments
      if overlapLength > 0 then
        let remainingInputSegments := inputSegments.drop overlapLength
        let deduplicatedInput := joinSegs remainingInputSegments
        posixNormalize (nodeResolve normalizedBase deduplicatedInput)
      else
        posixNormalize (nodeResolve basePath inputPath)
  let normalizedResolved := posixNormalize resolvedPath
  if isWithin normalizedBase normalizedResolved = false then
    Except.error (("Path traversal detected: ").toList ++ inputPath)
  else Except.ok normalizedResolved

/-- The canonical segments of the policy's base:
`normalize(resolve(basePath))` is `/` + these joined. -/
def baseSegsOf (basePath : Str) : List Str :=
  normalizeSegs false (posixSegs basePath)

/-- The canonical segments of the plain resolution
`path.resolve(basePath, inputPath)` (no overlap-stripping): the resolved
path of the candidate against the base.  `nodeResolve basePath inputPath`
is `/` + these joined. -/
def resolvedSegs (basePath inputPath : Str) : List Str :=
  if isAbsolute inputPath then normalizeSegs false (posixSegs inputPath)
  else normalizeSegs false (posixSegs (basePath ++ '/' :: inputPath))

/-- A canonical path segment: nonempty, not a dot segment, and free of
both separators. -/
def GoodSeg (x : Str) : Prop :=
  x ≠ [] ∧ x ≠ ['.'] ∧ x ≠ ['.', '.'] ∧ '/' ∉ x ∧ '\\' ∉ x

instance (x : Str) : Decidable (GoodSeg x) := by
  unfold GoodSeg
  infer_instance

/-- The up-count/segment-stack semantics of one `normalizeString` step for
relative paths: `.`/empty segments are skipped, `..` pops the stack or
increments the above-root count when the stack is empty, and any other
segment is pushed. -/
def coreStep (st : Nat × List Str) (seg : Str) : Nat × List Str :=
  if seg = [] ∨ seg = ['.'] then st
  else if seg = ['.', '.'] then
    match st.2 with
    | [] => (st.1 + 1, [])
    | _ :: _ => (st.1, st.2.dropLast)
  else (st.1, st.2 ++ [seg])

/-! ## AnalysisStrategyFactory, AnalysisOrchestrator and
CodeReviewUseCase.reviewFile -/

/-- The concrete strategy classes the factory can instantiate (the
`hybrid` tag also yields the Codex strategy). -/
inductive Strategy where
  | codexStrategy
  | staticStrategy
  | accessibilityStrategy
  | toxicArchitectStrategy
deriving DecidableEq

/-- `AnalysisStrategyFactory.createStrategy`
(src/strategies/AnalysisStrategyFactory.ts).  The orchestrator passes its
`analysisType` string straight through (`as any`), so the tag is a string;
the AI client dependency is modelled as an `Option`.  A `throw` is the
`Except.error` carrying the error message. -/
def createStrategy (type : Str) (aiClient : Option Unit) : Except Str Strategy :=
  if type = ("codex").toList then
    match aiClient with
    | none => .error (("AIClient is required for Codex analysis").toList)
    | some _ => .ok .codexStrategy
  else if type = ("static").toList then .ok .staticStrategy
  else if type = ("hybrid").toList then
    match aiClient with
    | none => .error (("AIClient is required for hybrid analysis").toList)
    | some _ => .ok .codexStrategy
  else if type = ("accessibility").toList then
    match aiClient with
    | none => .error (("AIClient is required for accessibility analysis").toList)
    | some _ => .ok .accessibilityStrategy
  else if type = ("toxic-architect").toList then
    match aiClient with
    | none => .error (("AIClient is required for toxic-architect analysis").toList)
    | some _ => .ok .toxicArchitectStrategy
  else .error (("Unknown analysis type: ").toList ++ type)

/-- `AnalysisResult` (src/domain/ports.ts). -/
structure AnalysisResult where
  context : Str
  securityIssues : List Str
  performanceIssues : List Str
  architectureIssues : List Str
  logicIssues : List Str
  suggestions : List Str
deriving DecidableEq

/-- The degraded result built by the catch block of
`AnalysisOrchestrator.analyze`. -/
def degradedResult (msg : Str) : AnalysisResult :=
  ⟨("Analysis failed: ").toList ++ msg, [], [], [], [], []⟩

/-- `AnalysisOrchestrator.analyze` (src/application/AnalysisOrchestrator.ts):
creates the strategy from the tag on every call, runs
`strategy.performAnalysis` (which delegates to external analysis backends
and is therefore modelled as an explicit function parameter), and converts
any thrown error — including the factory's missing-client error — into a
degraded result.  The field-by-field repackaging of the strategy result is
the identity. -/
def orchestratorAnalyze
    (perform : Strategy → Str → Str → Bool → AnalysisResult)
    (analysisType : Str) (aiClient : Option Unit)
    (path content : Str) (includeSuggestions : Bool) : AnalysisResult :=
  match createStrategy analysisType aiClient with
  | .error e => degradedResult e
  | .ok strat => perform strat content path includeSuggestions

/-- `ReviewStatus` (src/domain/ports.ts). -/
inductive ReviewStatus where
  | reviewed
  | skipped
  | inaccessible
  | error
deriving DecidableEq

/-- `ReviewedFile` (src/domain/ports.ts). -/
structure ReviewedFile where
  path : Str
  status : ReviewStatus
  reason : Option Str
  analysis : Option AnalysisResult
deriving DecidableEq

/-- The filesystem and analyzer interactions of one `reviewFile` run, in
order of occurrence. -/
inductive FsEvent where
  | existsEv (p : Str)
  | statEv (p : Str)
  | readEv (p : Str)
  | analyzeEv (p : Str)
deriving DecidableEq

/-- `CodeReviewUseCase.reviewFile`: resolve the path through the policy
(a throw is caught into the `error` status), check existence, stat the file
(the on-disk size of the stored content, its UTF-8 byte length) against the
1MB pre-check, read it, run the suitability check, and analyze.  The
filesystem is a partial map from resolved path to content, and the returned
event list records the filesystem and analyzer calls made. -/
def reviewFile (fs : Str → Option Str) (eng : RegexEngine)
    (config : AnalysisConfig)
    (perform : Strategy → Str → Str → Bool → AnalysisResult)
    (analysisType : Str) (aiClient : Option Unit)
    (repositoryPath filePath : Str) (includeSuggestions : Bool) :
    ReviewedFile × List FsEvent :=
  match safeResolve repositoryPath filePath with
  | .error e => (⟨filePath, .error, some e, none⟩, [])
  | .ok fullPath =>
    match fs fullPath with
    | none =>
      (⟨filePath, .inaccessible, some (("File does not exist").toList), none⟩,
       [.existsEv fullPath])
    | some content =>
      let size := utf8ByteLength content
      if size > 1048576 then
        (⟨filePath, .skipped, some (("File too large (").toList ++ natRepr size ++
          (" bytes > 1048576 bytes)").toList), none⟩,
         [.existsEv fullPath, .statEv fullPath])
      else
        let suitability := FileSuitabilityChecker.check eng config filePath content
        if suitability.suitable = false then
          (⟨filePath, .skipped, suitability.reason, none⟩,
           [.existsEv fullPath, .statEv fullPath, .readEv fullPath])
        else
          let analysis := orchestratorAnalyze perform analysisType aiClient
            filePath content includeSuggestions
          (⟨filePath, .reviewed, none, some analysis⟩,
           [.existsEv fullPath, .statEv fullPath, .readEv fullPath,
            .analyzeEv filePath])

/-! ## Theorems -/

/-! ## Theorems about the concurrent dispatcher -/

theorem promiseAll_error {α} (ps : List (Except Str α))
    (h : ∃ p ∈ ps, ∃ e, p = Except.error e) :
    ∃ e2, promiseAll ps = Except.error e2 := by
  induction ps with
  | nil => simp at h
  | cons p rest ih =>
    cases p with
    | error e => exact ⟨e, rfl⟩
    | ok v =>
      obtain ⟨q, hq, e, he⟩ := h
      rcases List.mem_cons.mp hq with rfl | hmem
      · cases he
      · obtain ⟨e2, h2⟩ := ih ⟨q, hmem, e, he⟩
        exact ⟨e2, by simp [promiseAll, h2]⟩

theorem processFiles_ok_of_all_ok {α} (files : List Str)
    (processor : Str → Except Str α) (lim : Int) (g : Str → α)
    (h : ∀ f ∈ files, processor f = Except.ok (g f)) :
    processFiles files processor lim = Except.ok (files.map g) := by
  induction files with
  | nil => rfl
  | cons a l ih =>
    have ha : processor a = Except.ok (g a) := h a (List.mem_cons_self a l)
    have ihl := ih (fun f hf => h f (List.mem_cons_of_mem a hf))
    simp only [processFiles, List.map_cons, promiseAll, ha] at *
    rw [ihl]

/-- C1 (amended): `ConcurrentFileProcessor.processFiles` starts every task
and wraps a per-file rejection into an `Error` naming the failing path, but
it rethrows that error inside `Promise.all`, so the overall call rejects
whenever any per-file task rejects; only when every task succeeds does the
caller receive the results of all tasks at their original positions. -/
theorem claim1_theorem {α} (files : List Str) (processor : Str → Except Str α)
    (lim : Int) :
    (∀ g : Str → α, (∀ f ∈ files, processor f = Except.ok (g f)) →
        processFiles files processor lim = Except.ok (files.map g))
    ∧ (∀ f ∈ files, ∀ e, processor f = Except.error e →
        ∃ e2, processFiles files processor lim = Except.error e2) := by
  constructor
  · exact fun g h => processFiles_ok_of_all_ok files processor lim g h
  · intro f hf e he
    apply promiseAll_error
    refine ⟨Except.error (("Failed processing ").toList ++ f ++ (": ").toList ++ e),
      ?_, _, rfl⟩
    refine List.mem_map.mpr ⟨f, hf, ?_⟩
    rw [he]

/-- Witness for C1: a concrete all-successful batch returns every result in
position, and a concrete failing task makes the batch reject. -/
theorem claim1_witness :
    processFiles [("a.ts").toList, ("b.ts").toList] (fun f => Except.ok f) 2
      = Except.ok [("a.ts").toList, ("b.ts").toList]
    ∧ ∃ e2, processFiles [("a.ts").toList, ("b.ts").toList]
        (fun f => if f = ("a.ts").toList then Except.error (("x").toList) else Except.ok f) 2
      = Except.error e2 := by
  constructor
  · exact (claim1_theorem [("a.ts").toList, ("b.ts").toList] (fun f => Except.ok f) 2).1
      id (fun f _ => rfl)
  · exact (claim1_theorem [("a.ts").toList, ("b.ts").toList]
        (fun f => if f = ("a.ts").toList then Except.error (("x").toList) else Except.ok f) 2).2
      (("a.ts").toList) (by simp) (("x").toList) (by simp)

/-- Counterexample to C1 as stated: five tasks under concurrency limit 2,
where only the task at index 2 rejects; `processFiles` rejects outright
instead of returning the other four results as data. -/
theorem claim1_counterexample :
    processFiles [("a").toList, ("b").toList, ("c").toList, ("d").toList, ("e").toList]
      (fun f => if f = ("c").toList then Except.error (("boom").toList) else Except.ok f) 2
      = Except.error (("Failed processing c: boom").toList) := by rfl

/-! ## Theorems about the suitability filter -/

/-- C9: for a file passing the extension, exclusion and all later checks,
`FileSuitabilityChecker.check` accepts content of byte length exactly
`maxFileSize` and rejects content of byte length exactly `maxFileSize + 1`,
with a reason naming the actual byte count and the configured limit. -/
theorem claim9_theorem (eng : RegexEngine) (config : AnalysisConfig)
    (path content content2 : Str)
    (hExt : config.supportedExtensions.any
      (fun ext => (jsToLower ext).isSuffixOf (jsToLower path)) = true)
    (hExc : config.excludedPatterns.any (fun pattern => eng.test pattern path) = false)
    (hSize : utf8ByteLength content = config.maxFileSize)
    (hLines : (splitOnChar '\n' content).length ≤ config.maxLines)
    (hFun : eng.countMatches functionRegexSource content ≤ config.maxFunctions)
    (hCls : eng.countMatches classRegexSource content ≤ config.maxClasses)
    (hSize2 : utf8ByteLength content2 = config.maxFileSize + 1) :
    FileSuitabilityChecker.check eng config path content = ⟨true, none⟩
    ∧ FileSuitabilityChecker.check eng config path content2 =
        ⟨false, some (("File too large (").toList ++ natRepr (config.maxFileSize + 1) ++
          (" bytes > ").toList ++ natRepr config.maxFileSize ++ (" bytes)").toList)⟩ := by
  constructor
  · simp only [FileSuitabilityChecker.check, hExt, hExc, hSize]
    rw [if_neg (by simp), if_neg (by simp), if_neg (by omega), if_neg (by omega),
      if_neg (by omega), if_neg (by omega)]
  · simp only [FileSuitabilityChecker.check, hExt, hExc, hSize2]
    rw [if_neg (by simp), if_neg (by simp), if_pos (by omega)]

/-- Witness for C9 at a concrete configuration: limit 3 bytes, content of
exactly 3 bytes accepted, content of 4 bytes rejected with the counting
reason. -/
theorem claim9_witness :
    FileSuitabilityChecker.check ⟨fun _ _ => false, fun _ _ => 0⟩
      ⟨3, 10, 10, 10, 1, [(".ts").toList], []⟩ (("a.ts").toList) (("abc").toList)
      = ⟨true, none⟩
    ∧ FileSuitabilityChecker.check ⟨fun _ _ => false, fun _ _ => 0⟩
      ⟨3, 10, 10, 10, 1, [(".ts").toList], []⟩ (("a.ts").toList) (("abcd").toList)
      = ⟨false, some (("File too large (4 bytes > 3 bytes)").toList)⟩ := by
  have h := claim9_theorem ⟨fun _ _ => false, fun _ _ => 0⟩
    ⟨3, 10, 10, 10, 1, [(".ts").toList], []⟩
    (("a.ts").toList) (("abc").toList) (("abcd").toList)
    (by decide) (by decide) (by decide) (by decide) (by decide) (by decide) (by decide)
  exact ⟨h.1, by rw [h.2]; decide⟩

/-! ## Lemmas about the porcelain parser -/

theorem splitOnChar_eq_single {sep : Char} {l : Str} (h : sep ∉ l) :
    splitOnChar sep l = [l] := by
  induction l with
  | nil => rfl
  | cons c rest ih =>
    have hc : ¬ (c = sep) := fun hceq => h (hceq ▸ List.mem_cons_self c rest)
    have hrest : sep ∉ rest := fun hm => h (List.mem_cons_of_mem c hm)
    simp only [splitOnChar, if_neg hc, ih hrest]

theorem jsTrim_ne_nil {l : Str} (h : ∃ c ∈ l, isJsWhitespace c = false) :
    (jsTrim l).isEmpty = false := by
  obtain ⟨c, hc, hws⟩ := h
  have key : ∀ m : Str, c ∈ m → m.dropWhile isJsWhitespace ≠ [] := by
    intro m hm hnil
    have hall : ∀ x ∈ m, isJsWhitespace x = true := by
      have := List.takeWhile_append_dropWhile isJsWhitespace m
      intro x hx
      rw [← this] at hx
      rcases List.mem_append.mp hx with h1 | h2
      · exact List.mem_takeWhile_imp h1
      · rw [hnil] at h2; cases h2
    rw [hall c hm] at hws; cases hws
  have h1 : c ∈ l.dropWhile isJsWhitespace := by
    have := List.takeWhile_append_dropWhile isJsWhitespace l
    rcases List.mem_append.mp (by rw [this]; exact hc) with h1 | h2
    · rw [List.mem_takeWhile_imp h1] at hws; cases hws
    · exact h2
  have h2 : c ∈ (l.dropWhile isJsWhitespace).reverse := List.mem_reverse.mpr h1
  have h3 := key _ h2
  have h4 : jsTrim l ≠ [] := by
    simp only [jsTrim, ne_eq, List.reverse_eq_nil_iff]
    exact h3
  cases hjt : jsTrim l with
  | nil => exact absurd hjt h4
  | cons a t => rfl

theorem parsePorcelain_single (line : Str) (hNL : '\n' ∉ line)
    (hNB : (jsTrim line).isEmpty = false) :
    parsePorcelain line = classifyStatusLine ⟨[], [], [], []⟩ line := by
  unfold parsePorcelain
  rw [splitOnChar_eq_single hNL]
  simp [List.filter, hNB]

/-- C3: classification of a single nonblank porcelain line: first status
character in A, M, R puts the path in `staged`; second character M puts it
in `modified` independently of the first (so a line with both puts the path
in both lists); two question marks put it in `untracked`; a D in either
position puts it in `deleted`. -/
theorem claim3_theorem (line : Str) (hNL : '\n' ∉ line)
    (hNB : (jsTrim line).isEmpty = false) :
    ((parsePorcelain line).staged =
      if (match (line.take 2).get? 0 with
          | some c => c == 'A' || c == 'M' || c == 'R'
          | none => false) then [line.drop 3] else [])
    ∧ ((parsePorcelain line).modified =
      if (line.take 2).get? 1 == some 'M' then [line.drop 3] else [])
    ∧ ((parsePorcelain line).untracked =
      if (line.take 2).get? 0 == some '?' && (line.take 2).get? 1 == some '?' then
        [line.drop 3] else [])
    ∧ ((parsePorcelain line).deleted =
      if (line.take 2).get? 0 == some 'D' || (line.take 2).get? 1 == some 'D' then
        [line.drop 3] else [])
    ∧ ((match (line.take 2).get? 0 with
        | some c => c == 'A' || c == 'M' || c == 'R'
        | none => false) = true → (line.take 2).get? 1 = some 'M' →
        line.drop 3 ∈ (parsePorcelain line).staged
        ∧ line.drop 3 ∈ (parsePorcelain line).modified) := by
  rw [parsePorcelain_single line hNL hNB]
  by_cases h1 : (match (line.take 2).get? 0 with
      | some c => c == 'A' || c == 'M' || c == 'R'
      | none => false) = true
  all_goals by_cases h2 : ((line.take 2).get? 1 == some 'M') = true
  all_goals by_cases h3 :
    ((line.take 2).get? 0 == some '?' && (line.take 2).get? 1 == some '?') = true
  all_goals by_cases h4 :
    ((line.take 2).get? 0 == some 'D' || (line.take 2).get? 1 == some 'D') = true
  all_goals simp_all [classifyStatusLine]
  all_goals split <;> simp_all

/-- Witness for C3: the line `MM a.ts` (staged-and-modified) lands in both
`staged` and `modified`, and nowhere else. -/
theorem claim3_witness :
    (parsePorcelain (("MM a.ts").toList)).staged = [("a.ts").toList]
    ∧ (parsePorcelain (("MM a.ts").toList)).modified = [("a.ts").toList]
    ∧ (parsePorcelain (("MM a.ts").toList)).untracked = []
    ∧ (parsePorcelain (("MM a.ts").toList)).deleted = [] := by
  have h := claim3_theorem (("MM a.ts").toList) (by decide) (by decide)
  refine ⟨?_, ?_, ?_, ?_⟩
  · rw [h.1]; rfl
  · rw [h.2.1]; rfl
  · rw [h.2.2.1]; rfl
  · rw [h.2.2.2.1]; rfl

/-- C5 (amended): for a porcelain rename line `R  old -> new` the parser
stores the entire text after the two-character code and the separating
space — the string `old -> new` — in `staged`; it does not extract the new
name. -/
theorem claim5_theorem (old new : Str) (hOld : '\n' ∉ old) (hNew : '\n' ∉ new) :
    parsePorcelain (("R  ").toList ++ old ++ (" -> ").toList ++ new)
      = ⟨[old ++ (" -> ").toList ++ new], [], [], []⟩ := by
  have hNL : '\n' ∉ ("R  ").toList ++ old ++ (" -> ").toList ++ new := by
    simp only [List.mem_append]
    rintro (((h | h) | h) | h)
    · simp at h
    · exact hOld h
    · simp at h
    · exact hNew h
  have hNB : (jsTrim (("R  ").toList ++ old ++ (" -> ").toList ++ new)).isEmpty = false := by
    refine jsTrim_ne_nil ⟨'R', ?_, rfl⟩
    simp [List.mem_append]
  rw [parsePorcelain_single _ hNL hNB]
  rfl

/-- Witness for C5 at a concrete rename line. -/
theorem claim5_witness :
    parsePorcelain (("R  a.ts -> b.ts").toList)
      = ⟨[("a.ts -> b.ts").toList], [], [], []⟩ := by
  have h := claim5_theorem (("a.ts").toList) (("b.ts").toList) (by decide) (by decide)
  exact h

/-- Counterexample to C5 as stated: for the rename line `R  a.ts -> b.ts`
the stored staged path is the full `a.ts -> b.ts` text, not the new name
`b.ts`. -/
theorem claim5_counterexample :
    (parsePorcelain (("R  a.ts -> b.ts").toList)).staged = [("a.ts -> b.ts").toList]
    ∧ (parsePorcelain (("R  a.ts -> b.ts").toList)).staged ≠ [("b.ts").toList] := by
  constructor
  · rfl
  · decide

/-- C6 (amended): when a status subprocess fails, `status()` re-raises a
single `Error` whose message is `Git command execution failed: ` followed
by the underlying error's message.  The raw subprocess error text is thus
embedded in — not removed from — the caller-visible message, and two runs
with different underlying errors produce different caller-visible
messages. -/
theorem claim6_theorem (branchRaw e : Str) (abRes : Except Str Str) :
    statusModel (Except.ok branchRaw) abRes (Except.error e)
      = Except.error (("Git command execution failed: ").toList ++ e)
    ∧ statusModel (Except.error e) abRes (Except.ok branchRaw)
      = Except.error (("Git command execution failed: ").toList ++ e)
    ∧ (∀ e2 : Str, (("Git command execution failed: ").toList ++ e
        = ("Git command execution failed: ").toList ++ e2) ↔ e = e2) := by
  exact ⟨rfl, rfl, fun e2 => List.append_right_inj _⟩

/-- Counterexample to C6 as stated: two runs whose subprocess errors differ
produce different caller-visible messages, each embedding the raw
subprocess error text. -/
theorem claim6_counterexample :
    statusModel (Except.ok (("main").toList)) (Except.ok (("0\t0").toList))
        (Except.error (("fatal: repo at /home/alice").toList))
      = Except.error (("Git command execution failed: fatal: repo at /home/alice").toList)
    ∧ statusModel (Except.ok (("main").toList)) (Except.ok (("0\t0").toList))
        (Except.error (("fatal: repo at /home/bob").toList))
      = Except.error (("Git command execution failed: fatal: repo at /home/bob").toList)
    ∧ (("Git command execution failed: fatal: repo at /home/alice").toList : Str)
      ≠ (("Git command execution failed: fatal: repo at /home/bob").toList) := by
  exact ⟨rfl, rfl, by decide⟩

theorem mem_dedupFirst_foldl (l acc : List Str) (x : Str) :
    x ∈ l.foldl (fun acc f => if f ∈ acc then acc else acc ++ [f]) acc
      ↔ x ∈ acc ∨ x ∈ l := by
  induction l generalizing acc with
  | nil => simp
  | cons a t ih =>
    simp only [List.foldl_cons]
    rw [ih]
    by_cases h : a ∈ acc
    · rw [if_pos h]
      constructor
      · rintro (h1 | h2)
        · exact Or.inl h1
        · exact Or.inr (List.mem_cons_of_mem a h2)
      · rintro (h1 | h2)
        · exact Or.inl h1
        · rcases List.mem_cons.mp h2 with rfl | h3
          · exact Or.inl h
          · exact Or.inr h3
    · rw [if_neg h]
      simp [List.mem_append, List.mem_cons, or_assoc]

theorem mem_dedupFirst (l : List Str) (x : Str) : x ∈ dedupFirst l ↔ x ∈ l := by
  unfold dedupFirst
  rw [mem_dedupFirst_foldl]
  simp

/-- C8: for every status snapshot, the files selected for review type
`staged` are a subset of those selected for `modified`, which are a subset
of those selected for `full`. -/
theorem claim8_theorem (gs : GitStatus) (x : Str) :
    (x ∈ filesForReview gs ReviewType.staged → x ∈ filesForReview gs ReviewType.modified)
    ∧ (x ∈ filesForReview gs ReviewType.modified → x ∈ filesForReview gs ReviewType.full) := by
  simp only [filesForReview, mem_dedupFirst, List.mem_map, List.mem_filter,
    List.mem_append]
  constructor
  · rintro ⟨y, ⟨hy, ht⟩, rfl⟩
    exact ⟨y, ⟨Or.inl hy, ht⟩, rfl⟩
  · rintro ⟨y, ⟨hy, ht⟩, rfl⟩
    refine ⟨y, ⟨?_, ht⟩, rfl⟩
    tauto

/-- Witness for C8: a concrete snapshot where the staged selection occurs
in the modified selection, and the modified one in the full selection. -/
theorem claim8_witness :
    (("a.ts").toList ∈ filesForReview
      ⟨("main").toList, 0, 0, [("A.ts").toList], [("b.ts").toList], [("c.ts").toList], []⟩
      ReviewType.modified)
    ∧ (("b.ts").toList ∈ filesForReview
      ⟨("main").toList, 0, 0, [("A.ts").toList], [("b.ts").toList], [("c.ts").toList], []⟩
      ReviewType.full) := by
  constructor
  · exact (claim8_theorem
      ⟨("main").toList, 0, 0, [("A.ts").toList], [("b.ts").toList], [("c.ts").toList], []⟩
      (("a.ts").toList)).1 (by decide)
  · exact (claim8_theorem
      ⟨("main").toList, 0, 0, [("A.ts").toList], [("b.ts").toList], [("c.ts").toList], []⟩
      (("b.ts").toList)).2 (by decide)

theorem charToLower_idem (c : Char) : c.toLower.toLower = c.toLower := by
  unfold Char.toLower
  by_cases h : c.toNat ≥ 65 ∧ c.toNat ≤ 90
  · rw [if_pos h]
    have hv : (c.toNat + 32).isValidChar := by left; omega
    have ht : (Char.ofNat (c.toNat + 32)).toNat = c.toNat + 32 := by
      unfold Char.ofNat
      rw [dif_pos hv]
      rfl
    rw [if_neg (by omega)]
  · rw [if_neg h, if_neg h]

theorem jsToLower_idem (s : Str) : jsToLower (jsToLower s) = jsToLower s := by
  simp only [jsToLower, List.map_map]
  exact List.map_congr_left (fun a _ => charToLower_idem a)

/-- C10: every path returned by `filesForReview` is lowercase-folded — it
is a fixed point of lowercase folding, having been produced by mapping
`toLowerCase` over the selected changed paths before deduplication. -/
theorem claim10_theorem (gs : GitStatus) (t : ReviewType) (x : Str)
    (h : x ∈ filesForReview gs t) : jsToLower x = x := by
  simp only [filesForReview, mem_dedupFirst, List.mem_map] at h
  obtain ⟨y, _, rfl⟩ := h
  exact jsToLower_idem y

/-- Witness for C10: a snapshot whose staged path `A.TS` is returned as
`a.ts`, a lowercase fixed point differing in case from the snapshot
entry. -/
theorem claim10_witness :
    jsToLower (("a.ts").toList) = ("a.ts").toList
    ∧ filesForReview
        ⟨("main").toList, 0, 0, [("A.TS").toList], [], [], []⟩ ReviewType.staged
      = [("a.ts").toList] := by
  constructor
  · exact claim10_theorem
      ⟨("main").toList, 0, 0, [("A.TS").toList], [], [], []⟩ ReviewType.staged
      (("a.ts").toList) (by decide)
  · decide

/-! ## Split/join lemmas for the path model -/

theorem splitOnChar_ne_nil (sep : Char) (s : Str) : splitOnChar sep s ≠ [] := by
  induction s with
  | nil => simp [splitOnChar]
  | cons c rest ih =>
    simp only [splitOnChar]
    split
    · simp
    · split <;> simp

theorem splitOnChar_append_sep (sep : Char) (a b : Str) :
    splitOnChar sep (a ++ sep :: b) = splitOnChar sep a ++ splitOnChar sep b := by
  induction a with
  | nil => simp [splitOnChar]
  | cons c a' ih =>
    by_cases hc : c = sep
    · subst hc
      simp [splitOnChar, ih]
    · cases hsp : splitOnChar sep a' with
      | nil => exact absurd hsp (splitOnChar_ne_nil sep a')
      | cons h t =>
        have e1 : splitOnChar sep ((c :: a') ++ sep :: b)
            = match splitOnChar sep (a' ++ sep :: b) with
              | [] => [[c]]
              | hd :: tl => (c :: hd) :: tl := by
          simp only [List.cons_append, splitOnChar]
          rw [if_neg hc]
          exact rfl
        have e2 : splitOnChar sep (c :: a')
            = match splitOnChar sep a' with
              | [] => [[c]]
              | hd :: tl => (c :: hd) :: tl := by
          simp only [splitOnChar, if_neg hc]
        rw [e1, e2, ih, hsp]
        simp

theorem mem_splitOnChar_not_sep {sep : Char} {s x : Str}
    (h : x ∈ splitOnChar sep s) : sep ∉ x := by
  induction s generalizing x with
  | nil =>
    simp only [splitOnChar, List.mem_singleton] at h
    subst h; simp
  | cons c rest ih =>
    simp only [splitOnChar] at h
    by_cases hc : c = sep
    · rw [if_pos hc] at h
      rcases List.mem_cons.mp h with rfl | hmem
      · simp
      · exact ih hmem
    · rw [if_neg hc] at h
      cases hsp : splitOnChar sep rest with
      | nil => exact absurd hsp (splitOnChar_ne_nil sep rest)
      | cons hd tl =>
        rw [hsp] at h
        rcases List.mem_cons.mp h with rfl | hmem
        · intro hmem2
          rcases List.mem_cons.mp hmem2 with rfl | hmem3
          · exact hc rfl
          · exact ih (hsp ▸ List.mem_cons_self hd tl) hmem3
        · exact ih (hsp ▸ List.mem_cons_of_mem hd hmem)

theorem mem_splitOnChar_sub {sep : Char} {s x : Str}
    (h : x ∈ splitOnChar sep s) : ∀ c ∈ x, c ∈ s := by
  induction s generalizing x with
  | nil =>
    simp only [splitOnChar, List.mem_singleton] at h
    subst h; simp
  | cons c rest ih =>
    simp only [splitOnChar] at h
    by_cases hc : c = sep
    · rw [if_pos hc] at h
      rcases List.mem_cons.mp h with rfl | hmem
      · simp
      · exact fun d hd => List.mem_cons_of_mem c (ih hmem d hd)
    · rw [if_neg hc] at h
      cases hsp : splitOnChar sep rest with
      | nil => exact absurd hsp (splitOnChar_ne_nil sep rest)
      | cons hd tl =>
        rw [hsp] at h
        rcases List.mem_cons.mp h with rfl | hmem
        · intro d hd2
          rcases List.mem_cons.mp hd2 with rfl | hd3
          · exact List.mem_cons_self d rest
          · exact List.mem_cons_of_mem c
              (ih (hsp ▸ List.mem_cons_self hd tl) d hd3)
        · exact fun d hd2 => List.mem_cons_of_mem c
            (ih (hsp ▸ List.mem_cons_of_mem hd hmem) d hd2)

theorem splitOnChar_joinSegs {segs : List Str} (h : ∀ x ∈ segs, '/' ∉ x)
    (hne : segs ≠ []) : splitOnChar '/' (joinSegs segs) = segs := by
  induction segs with
  | nil => exact absurd rfl hne
  | cons x rest ih =>
    cases rest with
    | nil =>
      show splitOnChar '/' x = [x]
      exact splitOnChar_eq_single (h x (List.mem_cons_self x []))
    | cons y ys =>
      show splitOnChar '/' (x ++ '/' :: joinSegs (y :: ys)) = x :: y :: ys
      rw [splitOnChar_append_sep,
        splitOnChar_eq_single (h x (List.mem_cons_self x (y :: ys))),
        ih (fun z hz => h z (List.mem_cons_of_mem x hz)) (List.cons_ne_nil y ys)]
      rfl

theorem joinSegs_ne_nil {segs : List Str} (hne : segs ≠ [])
    (h : ∀ x ∈ segs, x ≠ []) : joinSegs segs ≠ [] := by
  cases segs with
  | nil => exact absurd rfl hne
  | cons x rest =>
    cases rest with
    | nil => exact h x (List.mem_cons_self x [])
    | cons y ys =>
      show x ++ '/' :: joinSegs (y :: ys) ≠ []
      simp

theorem getLast?_joinSegs {segs : List Str} (hne : segs ≠ [])
    (h : ∀ x ∈ segs, x ≠ []) (hsl : ∀ x ∈ segs, '/' ∉ x) :
    (joinSegs segs).getLast? ≠ some '/' := by
  induction segs with
  | nil => exact absurd rfl hne
  | cons x rest ih =>
    cases rest with
    | nil =>
      have hx : x ≠ [] := h x (List.mem_cons_self x [])
      show x.getLast? ≠ some '/'
      rw [List.getLast?_eq_getLast x hx]
      intro hcon
      have hmem := List.getLast_mem hx
      rw [Option.some.injEq] at hcon
      exact hsl x (List.mem_cons_self x []) (hcon ▸ hmem)
    | cons y ys =>
      have hJ : joinSegs (y :: ys) ≠ [] :=
        joinSegs_ne_nil (List.cons_ne_nil y ys)
          (fun z hz => h z (List.mem_cons_of_mem x hz))
      show (x ++ '/' :: joinSegs (y :: ys)).getLast? ≠ some '/'
      rw [List.getLast?_append_of_ne_nil x (List.cons_ne_nil '/' _)]
      have : ('/' :: joinSegs (y :: ys)).getLast? = (joinSegs (y :: ys)).getLast? := by
        rw [show ('/' :: joinSegs (y :: ys)) = ['/'] ++ joinSegs (y :: ys) from rfl,
          List.getLast?_append_of_ne_nil ['/'] hJ]
      rw [this]
      exact ih (List.cons_ne_nil y ys)
        (fun z hz => h z (List.mem_cons_of_mem x hz))
        (fun z hz => hsl z (List.mem_cons_of_mem x hz))

theorem mem_joinSegs {segs : List Str} {c : Char} (h : c ∈ joinSegs segs) :
    c = '/' ∨ ∃ x ∈ segs, c ∈ x := by
  induction segs with
  | nil => cases h
  | cons x rest ih =>
    cases rest with
    | nil => exact Or.inr ⟨x, List.mem_cons_self x [], h⟩
    | cons y ys =>
      rcases List.mem_append.mp h with h1 | h2
      · exact Or.inr ⟨x, List.mem_cons_self x (y :: ys), h1⟩
      · rcases List.mem_cons.mp h2 with rfl | h3
        · exact Or.inl rfl
        · rcases ih h3 with h4 | ⟨z, hz, hcz⟩
          · exact Or.inl h4
          · exact Or.inr ⟨z, List.mem_cons_of_mem x hz, hcz⟩

theorem backslashToSlash_eq_self {s : Str} (h : '\\' ∉ s) :
    backslashToSlash s = s := by
  unfold backslashToSlash
  rw [List.map_congr_left (g := id), List.map_id]
  intro c hc
  simp only [id]
  rw [if_neg]
  intro hceq
  exact h (hceq ▸ hc)

/-! ## Normalization fold lemmas -/

theorem getLast?_replicate_succ (n : Nat) (a : Str) :
    (List.replicate (n + 1) a).getLast? = some a := by
  rw [List.replicate_succ', List.getLast?_append_of_ne_nil _ (by simp)]
  rfl

theorem foldl_normalizeStep_push_all {segs : List Str} (b : Bool)
    (h : ∀ x ∈ segs, x ≠ [] ∧ x ≠ ['.'] ∧ x ≠ ['.', '.']) :
    ∀ acc, segs.foldl (normalizeStep b) acc = acc ++ segs := by
  induction segs with
  | nil => intro acc; simp
  | cons x rest ih =>
    intro acc
    obtain ⟨h1, h2, h3⟩ := h x (List.mem_cons_self x rest)
    have hstep : normalizeStep b acc x = acc ++ [x] := by
      unfold normalizeStep
      rw [if_neg (by tauto), if_neg h3]
    rw [List.foldl_cons, hstep, ih (fun z hz => h z (List.mem_cons_of_mem x hz))]
    simp

theorem foldl_normalizeStep_false_good {segs : List Str}
    (hQ : ∀ x ∈ segs, '/' ∉ x ∧ '\\' ∉ x) :
    ∀ acc, (∀ x ∈ acc, GoodSeg x) →
      ∀ x ∈ segs.foldl (normalizeStep false) acc, GoodSeg x := by
  induction segs with
  | nil => intro acc hacc; simpa using hacc
  | cons seg rest ih =>
    intro acc hacc
    rw [List.foldl_cons]
    refine ih (fun z hz => hQ z (List.mem_cons_of_mem seg hz))
      (normalizeStep false acc seg) ?_
    unfold normalizeStep
    by_cases hskip : seg = [] ∨ seg = ['.']
    · rw [if_pos hskip]; exact hacc
    · rw [if_neg hskip]
      by_cases hdd : seg = ['.', '.']
      · rw [if_pos hdd]
        by_cases hpop : acc ≠ [] ∧ acc.getLast? ≠ some ['.', '.']
        · rw [if_pos hpop]
          exact fun z hz => hacc z (List.dropLast_subset acc hz)
        · rw [if_neg hpop, if_neg (by simp)]
          exact hacc
      · rw [if_neg hdd]
        intro z hz
        rcases List.mem_append.mp hz with hz1 | hz2
        · exact hacc z hz1
        · rw [List.mem_singleton] at hz2
          subst hz2
          obtain ⟨hq1, hq2⟩ := hQ z (List.mem_cons_self z rest)
          exact ⟨by tauto, by tauto, hdd, hq1, hq2⟩

theorem normalizeSegs_false_good {s : Str} (h : '\\' ∉ s) :
    ∀ x ∈ normalizeSegs false (posixSegs s), GoodSeg x := by
  refine foldl_normalizeStep_false_good ?_ [] (by simp)
  intro x hx
  constructor
  · exact mem_splitOnChar_not_sep hx
  · intro hc
    exact h (mem_splitOnChar_sub hx '\\' hc)

theorem coreStep_fst_le (st : Nat × List Str) (seg : Str) :
    st.1 ≤ (coreStep st seg).1 := by
  unfold coreStep
  split
  · exact Nat.le_refl _
  · split
    · split <;> simp
    · exact Nat.le_refl _

theorem core_k_mono (segs : List Str) :
    ∀ st : Nat × List Str, st.1 ≤ (segs.foldl coreStep st).1 := by
  induction segs with
  | nil => intro st; exact Nat.le_refl _
  | cons seg rest ih =>
    intro st
    rw [List.foldl_cons]
    exact Nat.le_trans (coreStep_fst_le st seg) (ih (coreStep st seg))

theorem foldl_true_core (segs : List Str) :
    ∀ k plains, (∀ x ∈ plains, x ≠ ['.', '.']) →
      (∀ x ∈ (segs.foldl coreStep (k, plains)).2, x ≠ ['.', '.'])
      ∧ segs.foldl (normalizeStep true) (List.replicate k (['.', '.'] : Str) ++ plains)
        = List.replicate (segs.foldl coreStep (k, plains)).1 (['.', '.'] : Str)
          ++ (segs.foldl coreStep (k, plains)).2 := by
  induction segs with
  | nil => intro k plains hp; exact ⟨hp, rfl⟩
  | cons seg rest ih =>
    intro k plains hp
    rw [List.foldl_cons, List.foldl_cons]
    by_cases hskip : seg = [] ∨ seg = ['.']
    · have hc : coreStep (k, plains) seg = (k, plains) := by
        unfold coreStep; rw [if_pos hskip]
      have hs : normalizeStep true (List.replicate k (['.', '.'] : Str) ++ plains) seg
          = List.replicate k (['.', '.'] : Str) ++ plains := by
        unfold normalizeStep; rw [if_pos hskip]
      rw [hc, hs]
      exact ih k plains hp
    · by_cases hdd : seg = ['.', '.']
      · subst hdd
        by_cases hpl : plains = []
        · subst hpl
          have hc : coreStep (k, ([] : List Str)) ['.', '.'] = (k + 1, []) := by
            unfold coreStep
            rw [if_neg hskip, if_pos rfl]
          have hs : normalizeStep true (List.replicate k (['.', '.'] : Str) ++ []) ['.', '.']
              = List.replicate (k + 1) (['.', '.'] : Str) ++ [] := by
            unfold normalizeStep
            rw [if_neg hskip, if_pos rfl, List.append_nil, List.append_nil]
            cases k with
            | zero => rw [if_neg (by simp), if_pos rfl]; rfl
            | succ n =>
              rw [if_neg (by rw [getLast?_replicate_succ]; simp), if_pos rfl]
              rw [List.replicate_succ' (n + 1)]
          rw [hc, hs]
          exact ih (k + 1) [] (by simp)
        · have hplne : plains ≠ [] := hpl
          have hlast : plains.getLast? = some (plains.getLast hplne) :=
            List.getLast?_eq_getLast plains hplne
          have hlastne : plains.getLast? ≠ some ['.', '.'] := by
            rw [hlast]
            intro hcon
            rw [Option.some.injEq] at hcon
            exact hp _ (List.getLast_mem hplne) hcon
          have hc : coreStep (k, plains) ['.', '.'] = (k, plains.dropLast) := by
            unfold coreStep
            rw [if_neg hskip, if_pos rfl]
            cases plains with
            | nil => exact absurd rfl hplne
            | cons q qs => rfl
          have hs : normalizeStep true (List.replicate k (['.', '.'] : Str) ++ plains) ['.', '.']
              = List.replicate k (['.', '.'] : Str) ++ plains.dropLast := by
            unfold normalizeStep
            rw [if_neg hskip, if_pos rfl, if_pos ?_, List.dropLast_append_of_ne_nil _ hplne]
            constructor
            · simp [hplne]
            · rw [List.getLast?_append_of_ne_nil _ hplne]
              exact hlastne
          rw [hc, hs]
          exact ih k plains.dropLast
            (fun z hz => hp z (List.dropLast_subset plains hz))
      · have hc : coreStep (k, plains) seg = (k, plains ++ [seg]) := by
          unfold coreStep
          rw [if_neg hskip, if_neg hdd]
        have hs : normalizeStep true (List.replicate k (['.', '.'] : Str) ++ plains) seg
            = List.replicate k (['.', '.'] : Str) ++ (plains ++ [seg]) := by
          unfold normalizeStep
          rw [if_neg hskip, if_neg hdd, List.append_assoc]
        rw [hc, hs]
        refine ih k (plains ++ [seg]) ?_
        intro z hz
        rcases List.mem_append.mp hz with hz1 | hz2
        · exact hp z hz1
        · rw [List.mem_singleton] at hz2
          subst hz2; exact hdd

theorem foldl_false_append (segs : List Str) :
    ∀ (b plains : List Str), (∀ x ∈ plains, x ≠ ['.', '.']) →
      (segs.foldl coreStep (0, plains)).1 = 0 →
      segs.foldl (normalizeStep false) (b ++ plains)
        = b ++ (segs.foldl coreStep (0, plains)).2 := by
  induction segs with
  | nil => intro b plains _ _; rfl
  | cons seg rest ih =>
    intro b plains hp h0
    rw [List.foldl_cons] at h0 ⊢
    rw [List.foldl_cons]
    by_cases hskip : seg = [] ∨ seg = ['.']
    · have hc : coreStep (0, plains) seg = (0, plains) := by
        unfold coreStep; rw [if_pos hskip]
      have hs : normalizeStep false (b ++ plains) seg = b ++ plains := by
        unfold normalizeStep; rw [if_pos hskip]
      rw [hc] at h0
      rw [hc, hs]
      exact ih b plains hp h0
    · by_cases hdd : seg = ['.', '.']
      · subst hdd
        by_cases hpl : plains = []
        · exfalso
          subst hpl
          have hc : coreStep (0, ([] : List Str)) ['.', '.'] = (1, []) := by
            unfold coreStep
            rw [if_neg hskip, if_pos rfl]
          rw [hc] at h0
          have := core_k_mono rest (1, [])
          omega
        · have hplne : plains ≠ [] := hpl
          have hlastne : plains.getLast? ≠ some ['.', '.'] := by
            rw [List.getLast?_eq_getLast plains hplne]
            intro hcon
            rw [Option.some.injEq] at hcon
            exact hp _ (List.getLast_mem hplne) hcon
          have hc : coreStep (0, plains) ['.', '.'] = (0, plains.dropLast) := by
            unfold coreStep
            rw [if_neg hskip, if_pos rfl]
            cases plains with
            | nil => exact absurd rfl hplne
            | cons q qs => rfl
          have hs : normalizeStep false (b ++ plains) ['.', '.']
              = b ++ plains.dropLast := by
            unfold normalizeStep
            rw [if_neg hskip, if_pos rfl, if_pos ?_, List.dropLast_append_of_ne_nil _ hplne]
            constructor
            · simp [hplne]
            · rw [List.getLast?_append_of_ne_nil _ hplne]
              exact hlastne
          rw [hc] at h0
          rw [hc, hs]
          exact ih b plains.dropLast
            (fun z hz => hp z (List.dropLast_subset plains hz)) h0
      · have hc : coreStep (0, plains) seg = (0, plains ++ [seg]) := by
          unfold coreStep
          rw [if_neg hskip, if_neg hdd]
        have hs : normalizeStep false (b ++ plains) seg = b ++ (plains ++ [seg]) := by
          unfold normalizeStep
          rw [if_neg hskip, if_neg hdd, List.append_assoc]
        rw [hc] at h0
        rw [hc, hs]
        refine ih b (plains ++ [seg]) ?_ h0
        intro z hz
        rcases List.mem_append.mp hz with hz1 | hz2
        · exact hp z hz1
        · rw [List.mem_singleton] at hz2
          subst hz2; exact hdd

/-! ## Prefix lemmas for separator-joined segments -/

theorem prefix_seg_iff (a : Str) : ∀ (x : Str) (p q : Str), '/' ∉ a → '/' ∉ x →
    ((a ++ '/' :: p) <+: (x ++ '/' :: q) ↔ (a = x ∧ p <+: q)) := by
  induction a with
  | nil =>
    intro x p q _ hx
    cases x with
    | nil => simp [List.cons_prefix_cons]
    | cons d x' =>
      simp only [List.nil_append, List.cons_append, List.cons_prefix_cons]
      constructor
      · rintro ⟨h1, _⟩
        exact absurd (h1 ▸ List.mem_cons_self d x') hx
      · rintro ⟨h1, _⟩
        cases h1
  | cons c a' ih =>
    intro x p q ha hx
    cases x with
    | nil =>
      simp only [List.cons_append, List.nil_append, List.cons_prefix_cons]
      constructor
      · rintro ⟨h1, _⟩
        exact absurd (h1 ▸ List.mem_cons_self c a') ha
      · rintro ⟨h1, _⟩
        cases h1
    | cons d x' =>
      simp only [List.cons_append, List.cons_prefix_cons, List.cons.injEq]
      rw [ih x' p q (fun hc => ha (List.mem_cons_of_mem c hc))
        (fun hc => hx (List.mem_cons_of_mem d hc))]
      tauto

theorem not_prefix_seg (a : Str) : ∀ (x p : Str), '/' ∉ x →
    ¬ ((a ++ '/' :: p) <+: x) := by
  induction a with
  | nil =>
    intro x p hx h
    cases x with
    | nil => simp at h
    | cons d x' =>
      rw [List.nil_append, List.cons_prefix_cons] at h
      exact hx (h.1 ▸ List.mem_cons_self d x')
  | cons c a' ih =>
    intro x p hx h
    cases x with
    | nil => simp at h
    | cons d x' =>
      rw [List.cons_append, List.cons_prefix_cons] at h
      exact ih x' p (fun hc => hx (List.mem_cons_of_mem d hc)) h.2

theorem join_prefix_strict (b : List Str) : ∀ (t : List Str), b ≠ [] →
    (∀ x ∈ b, '/' ∉ x ∧ x ≠ []) → (∀ x ∈ t, '/' ∉ x ∧ x ≠ []) →
    ((joinSegs b ++ ['/']) <+: joinSegs t ↔ (b <+: t ∧ b ≠ t)) := by
  induction b with
  | nil => intro t hb _ _; exact absurd rfl hb
  | cons a bs ih =>
    intro t _ hbw htw
    have ha : '/' ∉ a := (hbw a (List.mem_cons_self a bs)).1
    cases t with
    | nil =>
      constructor
      · intro h
        rw [show joinSegs ([] : List Str) = [] from rfl, List.prefix_nil] at h
        exact absurd h (by simp)
      · rintro ⟨h, _⟩
        rw [List.prefix_nil] at h
        cases h
    | cons x ts =>
      have hx : '/' ∉ x := (htw x (List.mem_cons_self x ts)).1
      cases bs with
      | nil =>
        cases ts with
        | nil =>
          show (a ++ ['/']) <+: x ↔ _
          constructor
          · intro h
            exact absurd h (not_prefix_seg a x [] hx)
          · rintro ⟨h1, h2⟩
            rw [List.cons_prefix_cons] at h1
            exact absurd (by rw [h1.1]) h2
        | cons t1 ts' =>
          show (a ++ ['/']) <+: (x ++ '/' :: joinSegs (t1 :: ts')) ↔ _
          rw [show (a ++ ['/'] : Str) = a ++ '/' :: [] from rfl,
            prefix_seg_iff a x [] (joinSegs (t1 :: ts')) ha hx]
          simp [List.cons_prefix_cons]
      | cons b1 bs' =>
        cases ts with
        | nil =>
          show ((a ++ '/' :: joinSegs (b1 :: bs')) ++ ['/']) <+: x ↔ _
          rw [List.append_assoc]
          constructor
          · intro h
            exact absurd h (not_prefix_seg a x _ hx)
          · rintro ⟨h1, _⟩
            rw [List.cons_prefix_cons] at h1
            rcases h1 with ⟨_, h3⟩
            rw [List.prefix_nil] at h3
            cases h3
        | cons t1 ts' =>
          show ((a ++ '/' :: joinSegs (b1 :: bs')) ++ ['/'])
              <+: (x ++ '/' :: joinSegs (t1 :: ts')) ↔ _
          rw [List.append_assoc, List.cons_append,
            prefix_seg_iff a x _ _ ha hx,
            ih (t1 :: ts') (by simp)
              (fun z hz => hbw z (List.mem_cons_of_mem a hz))
              (fun z hz => htw z (List.mem_cons_of_mem x hz))]
          simp only [List.cons_prefix_cons]
          constructor
          · rintro ⟨rfl, h2, h3⟩
            refine ⟨⟨rfl, h2⟩, ?_⟩
            intro hcon
            injection hcon with h4 h5
            exact h3 h5
          · rintro ⟨⟨rfl, h2⟩, h3⟩
            refine ⟨rfl, h2, ?_⟩
            intro hcon
            exact h3 (by rw [hcon])

theorem join_prefix_trail (b : List Str) : ∀ (t : List Str), b ≠ [] →
    (∀ x ∈ b, '/' ∉ x ∧ x ≠ []) → (∀ x ∈ t, '/' ∉ x ∧ x ≠ []) →
    ((joinSegs b ++ ['/']) <+: (joinSegs t ++ ['/']) ↔ b <+: t) := by
  induction b with
  | nil => intro t hb _ _; exact absurd rfl hb
  | cons a bs ih =>
    intro t _ hbw htw
    have ha : '/' ∉ a := (hbw a (List.mem_cons_self a bs)).1
    cases t with
    | nil =>
      show (joinSegs (a :: bs) ++ ['/']) <+: ['/'] ↔ _
      constructor
      · intro h
        have hlen := h.length_le
        rw [List.length_append] at hlen
        simp only [List.length_cons, List.length_nil] at hlen
        have hane : a ≠ [] := (hbw a (List.mem_cons_self a bs)).2
        have : 1 ≤ a.length := by
          cases a with
          | nil => exact absurd rfl hane
          | cons _ _ => simp
        have hja : a.length ≤ (joinSegs (a :: bs)).length := by
          cases bs with
          | nil => exact Nat.le_refl _
          | cons b1 bs' =>
            show a.length ≤ (a ++ '/' :: joinSegs (b1 :: bs')).length
            rw [List.length_append]
            omega
        omega
      · intro h
        rw [List.prefix_nil] at h
        cases h
    | cons x ts =>
      have hx : '/' ∉ x := (htw x (List.mem_cons_self x ts)).1
      cases bs with
      | nil =>
        cases ts with
        | nil =>
          show (a ++ ['/']) <+: (x ++ ['/']) ↔ _
          rw [show (a ++ ['/'] : Str) = a ++ '/' :: [] from rfl,
            show (x ++ ['/'] : Str) = x ++ '/' :: [] from rfl,
            prefix_seg_iff a x [] [] ha hx]
          simp [List.cons_prefix_cons]
        | cons t1 ts' =>
          show (a ++ ['/']) <+: ((x ++ '/' :: joinSegs (t1 :: ts')) ++ ['/']) ↔ _
          rw [List.append_assoc, List.cons_append,
            show (a ++ ['/'] : Str) = a ++ '/' :: [] from rfl,
            prefix_seg_iff a x [] _ ha hx]
          simp [List.cons_prefix_cons]
      | cons b1 bs' =>
        cases ts with
        | nil =>
          show ((a ++ '/' :: joinSegs (b1 :: bs')) ++ ['/']) <+: (x ++ ['/']) ↔ _
          rw [List.append_assoc, List.cons_append,
            show (x ++ ['/'] : Str) = x ++ '/' :: [] from rfl,
            prefix_seg_iff a x _ [] ha hx]
          constructor
          · rintro ⟨_, h2⟩
            rw [List.prefix_nil] at h2
            exact absurd h2 (by simp)
          · rintro h
            rw [List.cons_prefix_cons] at h
            rcases h with ⟨_, h3⟩
            rw [List.prefix_nil] at h3
            cases h3
        | cons t1 ts' =>
          show ((a ++ '/' :: joinSegs (b1 :: bs')) ++ ['/'])
              <+: ((x ++ '/' :: joinSegs (t1 :: ts')) ++ ['/']) ↔ _
          rw [List.append_assoc, List.append_assoc, List.cons_append, List.cons_append,
            prefix_seg_iff a x _ _ ha hx,
            ih (t1 :: ts') (by simp)
              (fun z hz => hbw z (List.mem_cons_of_mem a hz))
              (fun z hz => htw z (List.mem_cons_of_mem x hz))]
          simp [List.cons_prefix_cons]

/-! ## Canonical-form lemmas for the policy -/

theorem goodSeg_w1 {segs : List Str} (h : ∀ x ∈ segs, GoodSeg x) :
    ∀ x ∈ segs, '/' ∉ x ∧ x ≠ [] :=
  fun x hx => ⟨(h x hx).2.2.2.1, (h x hx).1⟩

theorem goodSeg_w2 {segs : List Str} (h : ∀ x ∈ segs, GoodSeg x) :
    ∀ x ∈ segs, x ≠ [] ∧ x ≠ ['.'] ∧ x ≠ ['.', '.'] :=
  fun x hx => ⟨(h x hx).1, (h x hx).2.1, (h x hx).2.2.1⟩

theorem not_backslash_mkAbs {segs : List Str} (h : ∀ x ∈ segs, GoodSeg x) :
    '\\' ∉ mkAbs segs := by
  intro hc
  rcases List.mem_cons.mp hc with h1 | h2
  · cases h1
  · rcases mem_joinSegs h2 with h3 | ⟨x, hx, hcx⟩
    · cases h3
    · exact (h x hx).2.2.2.2 hcx

theorem joinSegs_good_ne_nil {segs : List Str} (hne : segs ≠ [])
    (h : ∀ x ∈ segs, GoodSeg x) : joinSegs segs ≠ [] :=
  joinSegs_ne_nil hne (fun x hx => (h x hx).1)

theorem getLast?_mkAbs_ne_slash {segs : List Str} (hne : segs ≠ [])
    (h : ∀ x ∈ segs, GoodSeg x) : (mkAbs segs).getLast? ≠ some '/' := by
  show ('/' :: joinSegs segs).getLast? ≠ some '/'
  rw [show ('/' :: joinSegs segs) = ['/'] ++ joinSegs segs from rfl,
    List.getLast?_append_of_ne_nil ['/'] (joinSegs_good_ne_nil hne h)]
  exact getLast?_joinSegs hne (fun x hx => (h x hx).1)
    (fun x hx => (h x hx).2.2.2.1)

theorem isWithin_mkAbs {b t : List Str} (hb : ∀ x ∈ b, GoodSeg x)
    (ht : ∀ x ∈ t, GoodSeg x) :
    (isWithin (mkAbs b) (mkAbs t) = true) ↔ (b = [] ∨ (b <+: t ∧ b ≠ t)) := by
  simp only [isWithin, backslashToSlash_eq_self (not_backslash_mkAbs hb),
    backslashToSlash_eq_self (not_backslash_mkAbs ht)]
  cases b with
  | nil =>
    rw [if_pos (by rfl)]
    constructor
    · intro _; exact Or.inl rfl
    · intro _
      show (['/'].isPrefixOf ('/' :: joinSegs t)) = true
      simp [List.isPrefixOf]
  | cons a bs =>
    rw [if_neg ?_]
    · rw [List.isPrefixOf_iff_prefix,
        show (mkAbs (a :: bs) ++ ['/'] : Str)
          = '/' :: (joinSegs (a :: bs) ++ ['/']) from rfl,
        show (mkAbs t : Str) = '/' :: joinSegs t from rfl,
        List.cons_prefix_cons]
      rw [join_prefix_strict (a :: bs) t (by simp) (goodSeg_w1 hb) (goodSeg_w1 ht)]
      simp
    · intro hcon
      rw [beq_iff_eq] at hcon
      exact getLast?_mkAbs_ne_slash (by simp) hb hcon

theorem isWithin_mkAbs_trail {b t : List Str} (hb : ∀ x ∈ b, GoodSeg x)
    (ht : ∀ x ∈ t, GoodSeg x) :
    (isWithin (mkAbs b) (mkAbs t ++ ['/']) = true) ↔ (b = [] ∨ b <+: t) := by
  have htb : '\\' ∉ mkAbs t ++ ['/'] := by
    intro hc
    rcases List.mem_append.mp hc with h1 | h2
    · exact not_backslash_mkAbs ht h1
    · simp at h2
  simp only [isWithin, backslashToSlash_eq_self (not_backslash_mkAbs hb),
    backslashToSlash_eq_self htb]
  cases b with
  | nil =>
    rw [if_pos (by rfl)]
    constructor
    · intro _; exact Or.inl rfl
    · intro _
      show (['/'].isPrefixOf ('/' :: (joinSegs t ++ ['/']))) = true
      simp [List.isPrefixOf]
  | cons a bs =>
    rw [if_neg ?_]
    · rw [List.isPrefixOf_iff_prefix,
        show (mkAbs (a :: bs) ++ ['/'] : Str)
          = '/' :: (joinSegs (a :: bs) ++ ['/']) from rfl,
        show (mkAbs t ++ ['/'] : Str) = '/' :: (joinSegs t ++ ['/']) from rfl,
        List.cons_prefix_cons]
      rw [join_prefix_trail (a :: bs) t (by simp) (goodSeg_w1 hb) (goodSeg_w1 ht)]
      simp
    · intro hcon
      rw [beq_iff_eq] at hcon
      exact getLast?_mkAbs_ne_slash (by simp) hb hcon

theorem posixSegs_mkAbs {segs : List Str} (hne : segs ≠ [])
    (h : ∀ x ∈ segs, GoodSeg x) : posixSegs (mkAbs segs) = [] :: segs := by
  show splitOnChar '/' ('/' :: joinSegs segs) = [] :: segs
  have e1 : splitOnChar '/' ('/' :: joinSegs segs)
      = [] :: splitOnChar '/' (joinSegs segs) := rfl
  rw [e1, splitOnChar_joinSegs (fun x hx => (h x hx).2.2.2.1) hne]

theorem normalizeSegs_cons_nil (b : Bool) (segs : List Str) :
    normalizeSegs b ([] :: segs) = normalizeSegs b segs := by
  unfold normalizeSegs
  rw [List.foldl_cons]
  congr 1

theorem normalizeSegs_good_id {segs : List Str} (h : ∀ x ∈ segs, GoodSeg x)
    (b : Bool) : normalizeSegs b segs = segs := by
  unfold normalizeSegs
  rw [foldl_normalizeStep_push_all b (goodSeg_w2 h) []]
  rfl

theorem posixNormalize_mkAbs {segs : List Str} (h : ∀ x ∈ segs, GoodSeg x) :
    posixNormalize (mkAbs segs) = mkAbs segs := by
  cases segs with
  | nil => rfl
  | cons a rest =>
    have hne : (a :: rest : List Str) ≠ [] := by simp
    simp only [posixNormalize]
    rw [if_neg (by simp [mkAbs])]
    have habs : isAbsolute (mkAbs (a :: rest)) = true := rfl
    rw [habs]
    have htr : ((mkAbs (a :: rest)).getLast? == some '/') = false := by
      rw [beq_eq_false_iff_ne]
      exact getLast?_mkAbs_ne_slash hne h
    rw [htr]
    simp only [Bool.not_true]
    rw [posixSegs_mkAbs hne h, normalizeSegs_cons_nil, normalizeSegs_good_id h]
    rw [if_neg (joinSegs_good_ne_nil hne h)]
    rfl

theorem posixNormalize_mkAbs_trail {segs : List Str} (hne : segs ≠ [])
    (h : ∀ x ∈ segs, GoodSeg x) :
    posixNormalize (mkAbs segs ++ ['/']) = mkAbs segs ++ ['/'] := by
  simp only [posixNormalize]
  rw [if_neg (by simp [mkAbs])]
  have habs : isAbsolute (mkAbs segs ++ ['/']) = true := by
    cases hj : joinSegs segs <;> rfl
  rw [habs]
  have htr : ((mkAbs segs ++ ['/']).getLast? == some '/') = true := by
    rw [beq_iff_eq, List.getLast?_append_of_ne_nil _ (by simp)]
    rfl
  rw [htr]
  have hsegs : posixSegs (mkAbs segs ++ ['/']) = ([] :: segs) ++ [[]] := by
    show splitOnChar '/' (('/' :: joinSegs segs) ++ ['/']) = ([] :: segs) ++ [[]]
    have e0 : (('/' :: joinSegs segs) ++ ['/'] : Str)
        = '/' :: (joinSegs segs ++ '/' :: []) := by simp
    rw [e0]
    have e1 : splitOnChar '/' ('/' :: (joinSegs segs ++ '/' :: []))
        = [] :: splitOnChar '/' (joinSegs segs ++ '/' :: []) := rfl
    rw [e1, splitOnChar_append_sep,
      splitOnChar_joinSegs (fun x hx => (h x hx).2.2.2.1) hne]
    rfl
  rw [hsegs]
  simp only [Bool.not_true]
  have hfold : normalizeSegs false (([] :: segs) ++ [[]]) = segs := by
    unfold normalizeSegs
    rw [List.foldl_append]
    have e2 : List.foldl (normalizeStep false) [] ([] :: segs) = segs := by
      rw [List.foldl_cons]
      have e3 : normalizeStep false [] [] = [] := rfl
      rw [e3]
      rw [foldl_normalizeStep_push_all false (goodSeg_w2 h) []]
      rfl
    rw [e2]
    rfl
  rw [hfold]
  rw [if_neg (joinSegs_good_ne_nil hne h)]
  rfl

theorem splitPathSegments_mkAbs {segs : List Str} (h : ∀ x ∈ segs, GoodSeg x) :
    splitPathSegments (mkAbs segs) = segs := by
  cases segs with
  | nil => rfl
  | cons a rest =>
    unfold splitPathSegments
    rw [backslashToSlash_eq_self (not_backslash_mkAbs h),
      show (splitOnChar '/' (mkAbs (a :: rest))) = [] :: (a :: rest) from
        posixSegs_mkAbs (by simp) h]
    rw [List.filter_cons]
    simp only [decide_not, ne_eq, decide_True, Bool.not_true]
    rw [if_neg (by simp)]
    exact List.filter_eq_self.mpr (fun x hx => by
      simp [(h x hx).1])

/-! ## Branch analysis lemmas for SafePathPolicy.resolve -/

theorem foldl_normalizeStep_true_R {segs : List Str}
    (hQ : ∀ x ∈ segs, '/' ∉ x ∧ '\\' ∉ x) :
    ∀ acc, (∀ x ∈ acc, x ≠ [] ∧ '/' ∉ x ∧ '\\' ∉ x) →
      ∀ x ∈ segs.foldl (normalizeStep true) acc, x ≠ [] ∧ '/' ∉ x ∧ '\\' ∉ x := by
  induction segs with
  | nil => intro acc hacc; simpa using hacc
  | cons seg rest ih =>
    intro acc hacc
    rw [List.foldl_cons]
    refine ih (fun z hz => hQ z (List.mem_cons_of_mem seg hz))
      (normalizeStep true acc seg) ?_
    unfold normalizeStep
    by_cases hskip : seg = [] ∨ seg = ['.']
    · rw [if_pos hskip]; exact hacc
    · rw [if_neg hskip]
      by_cases hdd : seg = ['.', '.']
      · rw [if_pos hdd]
        by_cases hpop : acc ≠ [] ∧ acc.getLast? ≠ some ['.', '.']
        · rw [if_pos hpop]
          exact fun z hz => hacc z (List.dropLast_subset acc hz)
        · rw [if_neg hpop, if_pos rfl]
          intro z hz
          rcases List.mem_append.mp hz with hz1 | hz2
          · exact hacc z hz1
          · rw [List.mem_singleton] at hz2
            subst hz2
            refine ⟨by rw [hdd]; simp, ?_, ?_⟩
            · rw [hdd]; simp
            · rw [hdd]; simp
      · rw [if_neg hdd]
        intro z hz
        rcases List.mem_append.mp hz with hz1 | hz2
        · exact hacc z hz1
        · rw [List.mem_singleton] at hz2
          subst hz2
          obtain ⟨hq1, hq2⟩ := hQ z (List.mem_cons_self z rest)
          exact ⟨by tauto, hq1, hq2⟩

theorem isAbsolute_joinSegs_good {segs : List Str}
    (h : ∀ x ∈ segs, GoodSeg x) : isAbsolute (joinSegs segs) = false := by
  cases segs with
  | nil => rfl
  | cons x rest =>
    have hgx := h x (List.mem_cons_self x rest)
    cases x with
    | nil => exact absurd rfl hgx.1
    | cons c cs =>
      have hcx : ¬ (c = '/') := by
        intro hcon
        subst hcon
        exact hgx.2.2.2.1 (List.mem_cons_self _ _)
      cases rest with
      | nil =>
        show isAbsolute (c :: cs) = false
        simp [isAbsolute, hcx]
      | cons y ys =>
        show isAbsolute (c :: (cs ++ '/' :: joinSegs (y :: ys))) = false
        simp [isAbsolute, hcx]

theorem normalizeSegs_posixSegs_mkAbs {segs : List Str}
    (h : ∀ x ∈ segs, GoodSeg x) :
    normalizeSegs false (posixSegs (mkAbs segs)) = segs := by
  cases segs with
  | nil => rfl
  | cons a rest =>
    rw [posixSegs_mkAbs (by simp) h, normalizeSegs_cons_nil,
      normalizeSegs_good_id h]

theorem findOverlapFrom_spec (b i : List Str) (n : Nat) :
    findOverlapFrom b i n = 0
    ∨ (0 < findOverlapFrom b i n ∧ findOverlapFrom b i n ≤ n
        ∧ b.drop (b.length - findOverlapFrom b i n)
          = i.take (findOverlapFrom b i n)) := by
  induction n with
  | zero => exact Or.inl rfl
  | succ m ih =>
    by_cases heq : segmentsEqual (b.drop (b.length - (m + 1))) (i.take (m + 1)) = true
    · right
      have hstep : findOverlapFrom b i (m + 1)
          = (if segmentsEqual (b.drop (b.length - (m + 1))) (i.take (m + 1)) = true
             then m + 1 else findOverlapFrom b i m) := rfl
      have hval : findOverlapFrom b i (m + 1) = m + 1 := by
        rw [hstep, if_pos heq]
      rw [hval]
      refine ⟨by omega, Nat.le_refl _, ?_⟩
      unfold segmentsEqual at heq
      exact eq_of_beq heq
    · have hstep : findOverlapFrom b i (m + 1)
          = (if segmentsEqual (b.drop (b.length - (m + 1))) (i.take (m + 1)) = true
             then m + 1 else findOverlapFrom b i m) := rfl
      have hval : findOverlapFrom b i (m + 1) = findOverlapFrom b i m := by
        rw [hstep, if_neg heq]
      rw [hval]
      rcases ih with h0 | ⟨h1, h2, h3⟩
      · exact Or.inl h0
      · exact Or.inr ⟨h1, Nat.le_trans h2 (Nat.le_succ m), h3⟩

theorem isWithin_implies_prefix {base target : Str} (hbs : '\\' ∉ base)
    (hts : '\\' ∉ target) (h : isWithin base target = true) :
    base <+: target := by
  simp only [isWithin] at h
  rw [backslashToSlash_eq_self hbs, backslashToSlash_eq_self hts] at h
  by_cases hend : (base.getLast? == some '/') = true
  · rw [if_pos hend] at h
    exact List.isPrefixOf_iff_prefix.mp h
  · rw [if_neg hend] at h
    have h2 : (base ++ ['/']) <+: target := List.isPrefixOf_iff_prefix.mp h
    exact List.IsPrefix.trans ⟨['/'], rfl⟩ h2

theorem splitPathSegments_posixNormalize_rel {s : Str}
    (hrel : isAbsolute s = false) (hbs : '\\' ∉ s) :
    (normalizeSegs true (posixSegs s) = []
      ∧ splitPathSegments (posixNormalize s) = [['.']])
    ∨ (splitPathSegments (posixNormalize s) = normalizeSegs true (posixSegs s)
        ∧ normalizeSegs true (posixSegs s) ≠ []
        ∧ ∀ x ∈ normalizeSegs true (posixSegs s), x ≠ [] ∧ '/' ∉ x ∧ '\\' ∉ x) := by
  have hR : ∀ x ∈ normalizeSegs true (posixSegs s), x ≠ [] ∧ '/' ∉ x ∧ '\\' ∉ x := by
    refine foldl_normalizeStep_true_R ?_ [] (by simp)
    intro x hx
    exact ⟨mem_splitOnChar_not_sep hx,
      fun hc => hbs (mem_splitOnChar_sub hx '\\' hc)⟩
  by_cases hs0 : s = []
  · subst hs0
    exact Or.inl ⟨rfl, rfl⟩
  · by_cases hn : normalizeSegs true (posixSegs s) = []
    · left
      refine ⟨hn, ?_⟩
      simp only [posixNormalize]
      rw [if_neg hs0, hrel]
      simp only [Bool.not_false]
      rw [hn]
      simp only [Bool.false_eq_true, if_false]
      rw [if_pos (show (joinSegs ([] : List Str)) = ([] : Str) from rfl)]
      by_cases htr : (s.getLast? == some '/') = true
      · rw [if_pos htr]
        rfl
      · rw [if_neg htr]
        rfl
    · right
      refine ⟨?_, hn, hR⟩
      simp only [posixNormalize]
      rw [if_neg hs0, hrel]
      simp only [Bool.not_false]
      simp only [Bool.false_eq_true, if_false]
      have hbody : joinSegs (normalizeSegs true (posixSegs s)) ≠ [] :=
        joinSegs_ne_nil hn (fun x hx => (hR x hx).1)
      rw [if_neg hbody]
      have hnb : '\\' ∉ joinSegs (normalizeSegs true (posixSegs s)) := by
        intro hc
        rcases mem_joinSegs hc with h1 | ⟨x, hx, hcx⟩
        · cases h1
        · exact (hR x hx).2.2 hcx
      have hsplit : splitOnChar '/' (joinSegs (normalizeSegs true (posixSegs s)))
          = normalizeSegs true (posixSegs s) :=
        splitOnChar_joinSegs (fun x hx => (hR x hx).2.1) hn
      by_cases htr : (s.getLast? == some '/') = true
      · rw [if_pos htr]
        unfold splitPathSegments
        rw [backslashToSlash_eq_self (by
          intro hc
          rcases List.mem_append.mp hc with h1 | h2
          · exact hnb h1
          · simp at h2)]
        rw [show (joinSegs (normalizeSegs true (posixSegs s)) ++ ['/'] : Str)
            = joinSegs (normalizeSegs true (posixSegs s)) ++ '/' :: [] from rfl,
          splitOnChar_append_sep, hsplit]
        rw [List.filter_append]
        rw [List.filter_eq_self.mpr (fun x hx => by simp [(hR x hx).1])]
        simp [splitOnChar]
      · rw [if_neg htr]
        unfold splitPathSegments
        rw [backslashToSlash_eq_self hnb, hsplit]
        exact List.filter_eq_self.mpr (fun x hx => by simp [(hR x hx).1])

theorem normBase_eq {basePath : Str} (hB1 : '\\' ∉ basePath) :
    posixNormalize (nodeResolve1 basePath) = mkAbs (baseSegsOf basePath) := by
  show posixNormalize (mkAbs (baseSegsOf basePath)) = mkAbs (baseSegsOf basePath)
  exact posixNormalize_mkAbs (normalizeSegs_false_good hB1)

theorem good_baseSegsOf {basePath : Str} (hB1 : '\\' ∉ basePath) :
    ∀ x ∈ baseSegsOf basePath, GoodSeg x :=
  normalizeSegs_false_good hB1

theorem nodeResolve_eq (basePath inputPath : Str) :
    nodeResolve basePath inputPath = mkAbs (resolvedSegs basePath inputPath) := by
  unfold nodeResolve nodeResolve1 resolvedSegs
  split <;> rfl

theorem good_resolvedSegs {basePath inputPath : Str} (hB1 : '\\' ∉ basePath)
    (hB2 : '\\' ∉ inputPath) :
    ∀ x ∈ resolvedSegs basePath inputPath, GoodSeg x := by
  unfold resolvedSegs
  split
  · exact normalizeSegs_false_good hB2
  · refine normalizeSegs_false_good ?_
    intro hc
    rcases List.mem_append.mp hc with h1 | h2
    · exact hB1 h1
    · rcases List.mem_cons.mp h2 with h3 | h4
      · cases h3
      · exact hB2 h4

theorem core_plains_good (segs : List Str) :
    ∀ k plains, (∀ x ∈ plains, GoodSeg x) → (∀ x ∈ segs, '/' ∉ x ∧ '\\' ∉ x) →
      ∀ x ∈ (segs.foldl coreStep (k, plains)).2, GoodSeg x := by
  induction segs with
  | nil => intro k plains hp _; simpa using hp
  | cons seg rest ih =>
    intro k plains hp hQ
    rw [List.foldl_cons]
    have hQ' : ∀ x ∈ rest, '/' ∉ x ∧ '\\' ∉ x :=
      fun z hz => hQ z (List.mem_cons_of_mem seg hz)
    by_cases hskip : seg = [] ∨ seg = ['.']
    · have hc : coreStep (k, plains) seg = (k, plains) := by
        unfold coreStep; rw [if_pos hskip]
      rw [hc]
      exact ih k plains hp hQ'
    · by_cases hdd : seg = ['.', '.']
      · subst hdd
        by_cases hpl : plains = []
        · subst hpl
          have hc : coreStep (k, ([] : List Str)) ['.', '.'] = (k + 1, []) := by
            unfold coreStep; rw [if_neg hskip, if_pos rfl]
          rw [hc]
          exact ih (k + 1) [] (by simp) hQ'
        · have hc : coreStep (k, plains) ['.', '.'] = (k, plains.dropLast) := by
            unfold coreStep
            rw [if_neg hskip, if_pos rfl]
            cases plains with
            | nil => exact absurd rfl hpl
            | cons q qs => rfl
          rw [hc]
          exact ih k plains.dropLast
            (fun z hz => hp z (List.dropLast_subset plains hz)) hQ'
      · have hc : coreStep (k, plains) seg = (k, plains ++ [seg]) := by
          unfold coreStep; rw [if_neg hskip, if_neg hdd]
        rw [hc]
        refine ih k (plains ++ [seg]) ?_ hQ'
        intro z hz
        rcases List.mem_append.mp hz with hz1 | hz2
        · exact hp z hz1
        · rw [List.mem_singleton] at hz2
          subst hz2
          obtain ⟨hq1, hq2⟩ := hQ z (List.mem_cons_self z rest)
          exact ⟨by tauto, by tauto, hdd, hq1, hq2⟩

theorem posixSegs_mkAbs_trail {segs : List Str} (hne : segs ≠ [])
    (h : ∀ x ∈ segs, GoodSeg x) :
    splitOnChar '/' (mkAbs segs ++ ['/']) = ([] :: segs) ++ [[]] := by
  show splitOnChar '/' (('/' :: joinSegs segs) ++ ['/']) = ([] :: segs) ++ [[]]
  have e0 : (('/' :: joinSegs segs) ++ ['/'] : Str)
      = '/' :: (joinSegs segs ++ '/' :: []) := by simp
  rw [e0]
  have e1 : splitOnChar '/' ('/' :: (joinSegs segs ++ '/' :: []))
      = [] :: splitOnChar '/' (joinSegs segs ++ '/' :: []) := rfl
  rw [e1, splitOnChar_append_sep,
    splitOnChar_joinSegs (fun x hx => (h x hx).2.2.2.1) hne]
  rfl

theorem noDots_mkAbs {psegs : List Str} (h : ∀ x ∈ psegs, GoodSeg x) :
    ∀ seg ∈ splitOnChar '/' (mkAbs psegs), seg ≠ ['.'] ∧ seg ≠ ['.', '.'] := by
  cases psegs with
  | nil =>
    intro seg hseg
    have he : splitOnChar '/' (mkAbs ([] : List Str)) = [[], []] := rfl
    rw [he] at hseg
    rcases List.mem_cons.mp hseg with h1 | h2
    · subst h1
      exact ⟨by simp, by simp⟩
    · rw [List.mem_singleton] at h2
      subst h2
      exact ⟨by simp, by simp⟩
  | cons a rest =>
    rw [show (splitOnChar '/' (mkAbs (a :: rest))) = [] :: (a :: rest) from
      posixSegs_mkAbs (by simp) h]
    intro seg hseg
    rcases List.mem_cons.mp hseg with h1 | h2
    · subst h1
      exact ⟨by simp, by simp⟩
    · exact ⟨(h seg h2).2.1, (h seg h2).2.2.1⟩

theorem noDots_mkAbs_trail {psegs : List Str} (hne : psegs ≠ [])
    (h : ∀ x ∈ psegs, GoodSeg x) :
    ∀ seg ∈ splitOnChar '/' (mkAbs psegs ++ ['/']),
      seg ≠ ['.'] ∧ seg ≠ ['.', '.'] := by
  rw [posixSegs_mkAbs_trail hne h]
  intro seg hseg
  rcases List.mem_append.mp hseg with h1 | h2
  · rcases List.mem_cons.mp h1 with h3 | h4
    · subst h3
      exact ⟨by simp, by simp⟩
    · exact ⟨(h seg h4).2.1, (h seg h4).2.2.1⟩
  · rw [List.mem_singleton] at h2
    subst h2
    exact ⟨by simp, by simp⟩

theorem posixNormalize_abs {s : Str} (habs : isAbsolute s = true)
    (hbs : '\\' ∉ s) :
    posixNormalize s =
      (if normalizeSegs false (posixSegs s) = [] then (['/'] : Str)
       else if (s.getLast? == some '/') = true
       then mkAbs (normalizeSegs false (posixSegs s)) ++ ['/']
       else mkAbs (normalizeSegs false (posixSegs s))) := by
  have hs0 : s ≠ [] := by
    intro h
    subst h
    simp [isAbsolute] at habs
  have hG : ∀ x ∈ normalizeSegs false (posixSegs s), GoodSeg x :=
    normalizeSegs_false_good hbs
  simp only [posixNormalize]
  rw [if_neg hs0, habs]
  simp only [Bool.not_true]
  by_cases hn : normalizeSegs false (posixSegs s) = []
  · simp [hn, joinSegs]
  · have hbody : joinSegs (normalizeSegs false (posixSegs s)) ≠ [] :=
      joinSegs_ne_nil hn (fun x hx => (hG x hx).1)
    rw [if_neg hbody, if_neg hn]
    by_cases htr : (s.getLast? == some '/') = true
    · rw [if_pos htr, if_pos htr]
      simp [mkAbs]
    · rw [if_neg htr, if_neg htr]
      simp [mkAbs]

theorem safeResolve_rel_noOverlap {basePath inputPath : Str}
    (hB1 : '\\' ∉ basePath) (hB2 : '\\' ∉ inputPath)
    (hrel : isAbsolute inputPath = false)
    (hov : findOverlap (baseSegsOf basePath)
        (splitPathSegments (posixNormalize inputPath)) = 0) :
    safeResolve basePath inputPath =
      (if isWithin (mkAbs (baseSegsOf basePath))
          (mkAbs (resolvedSegs basePath inputPath)) = false
       then Except.error (("Path traversal detected: ").toList ++ inputPath)
       else Except.ok (mkAbs (resolvedSegs basePath inputPath))) := by
  have hgb := good_baseSegsOf hB1
  have hgr := good_resolvedSegs hB1 hB2
  simp only [safeResolve]
  rw [normBase_eq hB1, hrel]
  simp only [Bool.false_eq_true, if_false]
  rw [splitPathSegments_mkAbs hgb, hov]
  rw [if_neg (by omega : ¬ ((0 : Nat) > 0))]
  rw [nodeResolve_eq, posixNormalize_mkAbs hgr, posixNormalize_mkAbs hgr]

theorem safeResolve_abs {basePath inputPath : Str}
    (hB1 : '\\' ∉ basePath) (hB2 : '\\' ∉ inputPath)
    (habs : isAbsolute inputPath = true) :
    ∃ (psegs : List Str) (trail : Bool),
      (∀ x ∈ psegs, GoodSeg x)
      ∧ psegs = resolvedSegs basePath inputPath
      ∧ (trail = true → psegs ≠ [])
      ∧ safeResolve basePath inputPath =
          (if isWithin (mkAbs (baseSegsOf basePath))
              (if trail then mkAbs psegs ++ ['/'] else mkAbs psegs) = false
           then Except.error (("Path traversal detected: ").toList ++ inputPath)
           else Except.ok (if trail then mkAbs psegs ++ ['/'] else mkAbs psegs)) := by
  have hrs : resolvedSegs basePath inputPath
      = normalizeSegs false (posixSegs inputPath) := by
    unfold resolvedSegs
    rw [if_pos habs]
  have hgr := good_resolvedSegs hB1 hB2
  have hgr' : ∀ x ∈ normalizeSegs false (posixSegs inputPath), GoodSeg x := by
    rw [← hrs]; exact hgr
  have hpn := posixNormalize_abs habs hB2
  by_cases hr0 : normalizeSegs false (posixSegs inputPath) = []
  · refine ⟨[], false, by simp, by rw [hrs, hr0], by simp, ?_⟩
    simp only [safeResolve]
    rw [normBase_eq hB1, habs]
    simp only [if_true]
    rw [hpn, if_pos hr0]
    have hnr : posixNormalize (['/'] : Str) = mkAbs ([] : List Str) :=
      @posixNormalize_mkAbs [] (by simp)
    rw [hnr]
    simp
  · by_cases htr : (inputPath.getLast? == some '/') = true
    · refine ⟨normalizeSegs false (posixSegs inputPath), true, hgr', hrs.symm,
        fun _ => hr0, ?_⟩
      simp only [safeResolve]
      rw [normBase_eq hB1, habs]
      simp only [if_true]
      rw [hpn, if_neg hr0, if_pos htr,
        posixNormalize_mkAbs_trail hr0 hgr']
    · refine ⟨normalizeSegs false (posixSegs inputPath), false, hgr', hrs.symm,
        by simp, ?_⟩
      simp only [safeResolve]
      rw [normBase_eq hB1, habs]
      simp only [if_true]
      rw [hpn, if_neg hr0, if_neg htr,
        posixNormalize_mkAbs hgr']
      simp

theorem normalizeSegs_mkAbs_join {bsegs remaining : List Str}
    (hgb : ∀ x ∈ bsegs, GoodSeg x) (hgr : ∀ x ∈ remaining, GoodSeg x) :
    normalizeSegs false (posixSegs (mkAbs bsegs ++ '/' :: joinSegs remaining))
      = bsegs ++ remaining := by
  have h1 : posixSegs (mkAbs bsegs ++ '/' :: joinSegs remaining)
      = posixSegs (mkAbs bsegs) ++ posixSegs (joinSegs remaining) :=
    splitOnChar_append_sep '/' (mkAbs bsegs) (joinSegs remaining)
  rw [h1]
  show List.foldl (normalizeStep false) []
      (posixSegs (mkAbs bsegs) ++ posixSegs (joinSegs remaining)) = _
  rw [List.foldl_append]
  rw [show List.foldl (normalizeStep false) [] (posixSegs (mkAbs bsegs)) = bsegs from
    normalizeSegs_posixSegs_mkAbs hgb]
  by_cases hrem : remaining = []
  · subst hrem
    simp [posixSegs, splitOnChar, normalizeStep, joinSegs]
  · rw [show posixSegs (joinSegs remaining) = remaining from
      splitOnChar_joinSegs (fun x hx => (hgr x hx).2.2.2.1) hrem]
    exact foldl_normalizeStep_push_all false (goodSeg_w2 hgr) bsegs

theorem safeResolve_rel_overlap {basePath inputPath : Str}
    (hB1 : '\\' ∉ basePath) (hB2 : '\\' ∉ inputPath)
    (hrel : isAbsolute inputPath = false)
    (hov : 0 < findOverlap (baseSegsOf basePath)
        (splitPathSegments (posixNormalize inputPath))) :
    baseSegsOf basePath <+: resolvedSegs basePath inputPath
    ∧ ∃ psegs : List Str, (∀ x ∈ psegs, GoodSeg x)
      ∧ safeResolve basePath inputPath =
          (if isWithin (mkAbs (baseSegsOf basePath)) (mkAbs psegs) = false
           then Except.error (("Path traversal detected: ").toList ++ inputPath)
           else Except.ok (mkAbs psegs)) := by
  have hgb := good_baseSegsOf hB1
  have hoeq : findOverlap (baseSegsOf basePath)
      (splitPathSegments (posixNormalize inputPath))
      = findOverlapFrom (baseSegsOf basePath)
        (splitPathSegments (posixNormalize inputPath))
        (min (baseSegsOf basePath).length
          (splitPathSegments (posixNormalize inputPath)).length) := rfl
  rcases findOverlapFrom_spec (baseSegsOf basePath)
      (splitPathSegments (posixNormalize inputPath))
      (min (baseSegsOf basePath).length
        (splitPathSegments (posixNormalize inputPath)).length)
    with h0 | ⟨hpos, hle, heq⟩
  · rw [hoeq, h0] at hov
    omega
  · rw [← hoeq] at hpos hle heq
    have hleni : findOverlap (baseSegsOf basePath)
        (splitPathSegments (posixNormalize inputPath))
        ≤ (splitPathSegments (posixNormalize inputPath)).length :=
      Nat.le_trans hle (Nat.min_le_right _ _)
    cases hiseg : splitPathSegments (posixNormalize inputPath) with
    | nil =>
      rw [hiseg] at hleni hov
      simp at hleni
      omega
    | cons i0 irest =>
      have hi0b : i0 ∈ baseSegsOf basePath := by
        cases ho : findOverlap (baseSegsOf basePath)
            (splitPathSegments (posixNormalize inputPath)) with
        | zero => rw [ho] at hov; omega
        | succ m =>
          rw [ho, hiseg] at heq
          have hi0 : i0 ∈ (baseSegsOf basePath).drop
              ((baseSegsOf basePath).length - (m + 1)) := by
            rw [heq, List.take_succ_cons]
            exact List.mem_cons_self i0 _
          exact List.drop_subset _ _ hi0
      have hGi0 : GoodSeg i0 := hgb i0 hi0b
      rcases splitPathSegments_posixNormalize_rel hrel hB2 with ⟨_, hdot⟩
        | ⟨hsp, _, _⟩
      · rw [hdot] at hiseg
        injection hiseg with hi1 _
        exact absurd hi1.symm hGi0.2.1
      · have hpichar : ∀ x ∈ posixSegs inputPath, '/' ∉ x ∧ '\\' ∉ x := by
          intro x hx
          exact ⟨mem_splitOnChar_not_sep hx,
            fun hc => hB2 (mem_splitOnChar_sub hx '\\' hc)⟩
        obtain ⟨hPdd, hdecomp⟩ :=
          foldl_true_core (posixSegs inputPath) 0 [] (by simp)
        have hdecomp' : normalizeSegs true (posixSegs inputPath)
            = List.replicate
                ((posixSegs inputPath).foldl coreStep (0, [])).1 (['.', '.'] : Str)
              ++ ((posixSegs inputPath).foldl coreStep (0, [])).2 := hdecomp
        have hK0 : ((posixSegs inputPath).foldl coreStep (0, [])).1 = 0 := by
          cases hK : ((posixSegs inputPath).foldl coreStep (0, [])).1 with
          | zero => rfl
          | succ k =>
            exfalso
            rw [hK] at hdecomp'
            rw [hdecomp'] at hsp
            rw [List.replicate_succ] at hsp
            rw [hsp] at hiseg
            injection hiseg with hi1 _
            exact absurd hi1.symm hGi0.2.2.1
        have hiP : splitPathSegments (posixNormalize inputPath)
            = ((posixSegs inputPath).foldl coreStep (0, [])).2 := by
          rw [hsp, hdecomp', hK0]
          simp
        have hPGood : ∀ x ∈ ((posixSegs inputPath).foldl coreStep (0, [])).2,
            GoodSeg x :=
          core_plains_good (posixSegs inputPath) 0 [] (by simp) hpichar
        have hisegGood : ∀ x ∈ splitPathSegments (posixNormalize inputPath),
            GoodSeg x := by
          rw [hiP]; exact hPGood
        have hrs : resolvedSegs basePath inputPath
            = baseSegsOf basePath ++ ((posixSegs inputPath).foldl coreStep (0, [])).2 := by
          unfold resolvedSegs
          rw [hrel]
          simp only [Bool.false_eq_true, if_false]
          rw [show posixSegs (basePath ++ '/' :: inputPath)
              = posixSegs basePath ++ posixSegs inputPath from
            splitOnChar_append_sep '/' basePath inputPath]
          show List.foldl (normalizeStep false) []
            (posixSegs basePath ++ posixSegs inputPath) = _
          rw [List.foldl_append]
          have hstep := foldl_false_append (posixSegs inputPath)
            (baseSegsOf basePath) [] (by simp) hK0
          rw [List.append_nil] at hstep
          exact hstep
        constructor
        · rw [hrs]
          exact ⟨_, rfl⟩
        · have hremGood : ∀ x ∈ (splitPathSegments (posixNormalize inputPath)).drop
              (findOverlap (baseSegsOf basePath)
                (splitPathSegments (posixNormalize inputPath))), GoodSeg x :=
            fun x hx => hisegGood x (List.drop_subset _ _ hx)
          refine ⟨baseSegsOf basePath ++ (splitPathSegments (posixNormalize inputPath)).drop
              (findOverlap (baseSegsOf basePath)
                (splitPathSegments (posixNormalize inputPath))), ?_, ?_⟩
          · intro x hx
            rcases List.mem_append.mp hx with h1 | h2
            · exact hgb x h1
            · exact hremGood x h2
          · simp only [safeResolve]
            rw [normBase_eq hB1, hrel]
            simp only [Bool.false_eq_true, if_false]
            rw [splitPathSegments_mkAbs hgb]
            rw [if_pos hov]
            have hj : nodeResolve (mkAbs (baseSegsOf basePath))
                (joinSegs ((splitPathSegments (posixNormalize inputPath)).drop
                  (findOverlap (baseSegsOf basePath)
                    (splitPathSegments (posixNormalize inputPath)))))
                = mkAbs (baseSegsOf basePath
                    ++ (splitPathSegments (posixNormalize inputPath)).drop
                      (findOverlap (baseSegsOf basePath)
                        (splitPathSegments (posixNormalize inputPath)))) := by
              unfold nodeResolve
              rw [isAbsolute_joinSegs_good hremGood]
              simp only [Bool.false_eq_true, if_false]
              show mkAbs (normalizeSegs false (posixSegs (mkAbs (baseSegsOf basePath)
                ++ '/' :: joinSegs _))) = _
              rw [normalizeSegs_mkAbs_join hgb hremGood]
            have hPG : ∀ x ∈ baseSegsOf basePath
                ++ (splitPathSegments (posixNormalize inputPath)).drop
                  (findOverlap (baseSegsOf basePath)
                    (splitPathSegments (posixNormalize inputPath))), GoodSeg x := by
              intro x hx
              rcases List.mem_append.mp hx with h1 | h2
              · exact hgb x h1
              · exact hremGood x h2
            rw [hj, posixNormalize_mkAbs hPG, posixNormalize_mkAbs hPG]

theorem safeResolve_shape {basePath inputPath : Str}
    (hB1 : '\\' ∉ basePath) (hB2 : '\\' ∉ inputPath) :
    ∃ (psegs : List Str) (trail : Bool),
      (∀ x ∈ psegs, GoodSeg x)
      ∧ (trail = true → psegs ≠ [])
      ∧ (psegs = resolvedSegs basePath inputPath
          ∨ baseSegsOf basePath <+: resolvedSegs basePath inputPath)
      ∧ safeResolve basePath inputPath =
          (if isWithin (mkAbs (baseSegsOf basePath))
              (if trail then mkAbs psegs ++ ['/'] else mkAbs psegs) = false
           then Except.error (("Path traversal detected: ").toList ++ inputPath)
           else Except.ok (if trail then mkAbs psegs ++ ['/'] else mkAbs psegs)) := by
  by_cases habs : isAbsolute inputPath = true
  · obtain ⟨psegs, trail, hgood, heqr, htne, heq⟩ := safeResolve_abs hB1 hB2 habs
    exact ⟨psegs, trail, hgood, htne, Or.inl heqr, heq⟩
  · have hrel : isAbsolute inputPath = false := by
      cases h : isAbsolute inputPath
      · rfl
      · exact absurd h habs
    by_cases hov : 0 < findOverlap (baseSegsOf basePath)
        (splitPathSegments (posixNormalize inputPath))
    · obtain ⟨hpre, psegs, hgood, heq⟩ := safeResolve_rel_overlap hB1 hB2 hrel hov
      exact ⟨psegs, false, hgood, by simp, Or.inr hpre, heq⟩
    · have hov0 : findOverlap (baseSegsOf basePath)
          (splitPathSegments (posixNormalize inputPath)) = 0 := by omega
      exact ⟨resolvedSegs basePath inputPath, false, good_resolvedSegs hB1 hB2,
        by simp, Or.inl rfl, safeResolve_rel_noOverlap hB1 hB2 hrel hov0⟩

/-- C2 (amended): on linux, for an absolute backslash-free base and a
backslash-free candidate, `SafePathPolicy.resolve`:
(a) only ever returns a canonical absolute path that extends the canonical
base (prefixed by it, absolute, and containing no `.` or `..` segments);
(b) throws `PathTraversalError` for every candidate whose plain resolution
`path.resolve(base, candidate)` escapes the base — in particular for every
`..`-escaping candidate;
(c) returns the plain resolution unchanged for every relative candidate
resolving strictly inside the base whose leading segments do not duplicate
the base's trailing segments.  A candidate resolving exactly to the base
itself (such as `.`) is rejected, not returned. -/
theorem claim2_theorem (basePath inputPath : Str)
    (hAbs : isAbsolute basePath = true)
    (hB1 : '\\' ∉ basePath) (hB2 : '\\' ∉ inputPath) :
    (∀ p, safeResolve basePath inputPath = Except.ok p →
        mkAbs (baseSegsOf basePath) <+: p
        ∧ isAbsolute p = true
        ∧ ∀ seg ∈ splitOnChar '/' p, seg ≠ ['.'] ∧ seg ≠ ['.', '.'])
    ∧ (¬ (baseSegsOf basePath <+: resolvedSegs basePath inputPath) →
        ∃ e, safeResolve basePath inputPath = Except.error e)
    ∧ (isAbsolute inputPath = false →
        findOverlap (baseSegsOf basePath)
          (splitPathSegments (posixNormalize inputPath)) = 0 →
        baseSegsOf basePath <+: resolvedSegs basePath inputPath →
        baseSegsOf basePath ≠ resolvedSegs basePath inputPath →
        safeResolve basePath inputPath
          = Except.ok (mkAbs (resolvedSegs basePath inputPath))) := by
  have hgb := good_baseSegsOf hB1
  refine ⟨?_, ?_, ?_⟩
  · intro p hok
    obtain ⟨psegs, trail, hgood, htne, _, heq⟩ := safeResolve_shape hB1 hB2
    rw [heq] at hok
    by_cases hguard : isWithin (mkAbs (baseSegsOf basePath))
        (if trail then mkAbs psegs ++ ['/'] else mkAbs psegs) = false
    · rw [if_pos hguard] at hok
      cases hok
    · rw [if_neg hguard] at hok
      have hguard2 : isWithin (mkAbs (baseSegsOf basePath))
          (if trail then mkAbs psegs ++ ['/'] else mkAbs psegs) = true := by
        cases h : isWithin (mkAbs (baseSegsOf basePath))
            (if trail then mkAbs psegs ++ ['/'] else mkAbs psegs)
        · exact absurd h hguard
        · rfl
      injection hok with hp
      subst hp
      have htb : '\\' ∉ (if trail then mkAbs psegs ++ ['/'] else mkAbs psegs) := by
        cases trail
        · simpa using not_backslash_mkAbs hgood
        · simp only [if_true]
          intro hc
          rcases List.mem_append.mp hc with h1 | h2
          · exact not_backslash_mkAbs hgood h1
          · simp at h2
      refine ⟨?_, ?_, ?_⟩
      · exact isWithin_implies_prefix (not_backslash_mkAbs hgb) htb hguard2
      · cases trail
        · rfl
        · rfl
      · cases trail
        · simpa using noDots_mkAbs hgood
        · simpa using noDots_mkAbs_trail (htne rfl) hgood
  · intro hesc
    obtain ⟨psegs, trail, hgood, htne, hdisj, heq⟩ := safeResolve_shape hB1 hB2
    by_cases hguard : isWithin (mkAbs (baseSegsOf basePath))
        (if trail then mkAbs psegs ++ ['/'] else mkAbs psegs) = false
    · exact ⟨_, by rw [heq, if_pos hguard]⟩
    · exfalso
      have hguard2 : isWithin (mkAbs (baseSegsOf basePath))
          (if trail then mkAbs psegs ++ ['/'] else mkAbs psegs) = true := by
        cases h : isWithin (mkAbs (baseSegsOf basePath))
            (if trail then mkAbs psegs ++ ['/'] else mkAbs psegs)
        · exact absurd h hguard
        · rfl
      rcases hdisj with hpr | hpre
      · subst hpr
        cases trail
        · simp only [if_false] at hguard2
          rcases (isWithin_mkAbs hgb hgood).mp (by simpa using hguard2)
            with hb0 | ⟨hpre2, _⟩
          · exact hesc (hb0 ▸ List.nil_prefix)
          · exact hesc hpre2
        · simp only [if_true] at hguard2
          rcases (isWithin_mkAbs_trail hgb hgood).mp (by simpa using hguard2)
            with hb0 | hpre2
          · exact hesc (hb0 ▸ List.nil_prefix)
          · exact hesc hpre2
      · exact hesc hpre
  · intro hrel hov hpre hne
    rw [safeResolve_rel_noOverlap hB1 hB2 hrel hov]
    rw [if_neg ?_]
    have htrue : isWithin (mkAbs (baseSegsOf basePath))
        (mkAbs (resolvedSegs basePath inputPath)) = true :=
      (isWithin_mkAbs hgb (good_resolvedSegs hB1 hB2)).mpr (Or.inr ⟨hpre, hne⟩)
    rw [htrue]
    simp

/-- Counterexample to C2 as stated: the non-escaping candidate `.` resolves
exactly to the base (`path.resolve("/repo", ".") = "/repo"`), yet
`SafePathPolicy.resolve` throws `PathTraversalError` instead of returning
it. -/
theorem claim2_counterexample :
    safeResolve (("/repo").toList) ((".").toList)
      = Except.error (("Path traversal detected: .").toList)
    ∧ nodeResolve (("/repo").toList) ((".").toList) = ("/repo").toList := by
  exact ⟨rfl, rfl⟩

/-- Witness for C2 at concrete inputs: an escaping `..` candidate throws,
and a plain relative candidate strictly inside the base is returned. -/
theorem claim2_witness :
    (∃ e, safeResolve (("/repo").toList) (("../etc/passwd").toList)
      = Except.error e)
    ∧ safeResolve (("/repo").toList) (("src/a.ts").toList)
      = Except.ok (("/repo/src/a.ts").toList) := by
  constructor
  · exact (claim2_theorem (("/repo").toList) (("../etc/passwd").toList)
      (by decide) (by decide) (by decide)).2.1 (by decide)
  · have h := (claim2_theorem (("/repo").toList) (("src/a.ts").toList)
      (by decide) (by decide) (by decide)).2.2
      (by decide) (by decide) (by decide) (by decide)
    rw [h]
    rfl

/-- C7 (amended): `SafePathPolicy.resolve` performs no symlink resolution —
it is a pure function of the two path strings and never consults the
filesystem (`FileSystem.realPath` exists but is never called by the
policy).  Consequently a candidate that is a symlink located inside the
base is accepted with its textual in-base path even when its real target
(`realTarget`, hypothesised outside the base) would fail the containment
check. -/
theorem claim7_theorem (basePath link realTarget : Str)
    (hAbs : isAbsolute basePath = true) (hB1 : '\\' ∉ basePath)
    (hGl : GoodSeg link)
    (hov : findOverlap (baseSegsOf basePath)
      (splitPathSegments (posixNormalize link)) = 0)
    (hOut : isWithin (posixNormalize (nodeResolve1 basePath)) realTarget = false) :
    safeResolve basePath link
      = Except.ok (mkAbs (baseSegsOf basePath ++ [link])) := by
  have hgb := good_baseSegsOf hB1
  have hB2 : '\\' ∉ link := hGl.2.2.2.2
  have hrel : isAbsolute link = false := by
    cases hl : link with
    | nil => rfl
    | cons c cs =>
      have hc : ¬ (c = '/') := by
        intro hcon
        subst hcon
        exact hGl.2.2.2.1 (hl ▸ List.mem_cons_self _ _)
      simp [isAbsolute, hc]
  have hrsegs : resolvedSegs basePath link = baseSegsOf basePath ++ [link] := by
    unfold resolvedSegs
    rw [hrel]
    simp only [Bool.false_eq_true, if_false]
    rw [show posixSegs (basePath ++ '/' :: link)
        = posixSegs basePath ++ posixSegs link from
      splitOnChar_append_sep '/' basePath link]
    show List.foldl (normalizeStep false) []
      (posixSegs basePath ++ posixSegs link) = _
    rw [List.foldl_append]
    rw [show posixSegs link = [link] from
      splitOnChar_eq_single hGl.2.2.2.1]
    exact foldl_normalizeStep_push_all false
      (fun x hx => by
        rw [List.mem_singleton] at hx
        subst hx
        exact ⟨hGl.1, hGl.2.1, hGl.2.2.1⟩) _
  rw [safeResolve_rel_noOverlap hB1 hB2 hrel hov, hrsegs]
  have htrue : isWithin (mkAbs (baseSegsOf basePath))
      (mkAbs (baseSegsOf basePath ++ [link])) = true := by
    refine (isWithin_mkAbs hgb ?_).mpr (Or.inr ⟨⟨[link], rfl⟩, ?_⟩)
    · intro x hx
      rcases List.mem_append.mp hx with h1 | h2
      · exact hgb x h1
      · rw [List.mem_singleton] at h2
        subst h2
        exact hGl
    · intro hcon
      have := congrArg List.length hcon
      rw [List.length_append] at this
      simp at this
  rw [htrue]
  simp

/-- Counterexample to C7 as stated: for base `/repo` and candidate
`link.ts` — a symlink whose real target `/outside/secret.ts` fails the
containment check — `resolve` accepts the candidate with its textual path
instead of rejecting it with `PathTraversalError`. -/
theorem claim7_counterexample :
    safeResolve (("/repo").toList) (("link.ts").toList)
      = Except.ok (("/repo/link.ts").toList)
    ∧ isWithin (posixNormalize (nodeResolve1 (("/repo").toList)))
        (("/outside/secret.ts").toList) = false := by
  exact ⟨rfl, rfl⟩

/-- Witness for C7 at concrete inputs. -/
theorem claim7_witness :
    safeResolve (("/repo").toList) (("link.ts").toList)
      = Except.ok (("/repo/link.ts").toList) := by
  rw [claim7_theorem (("/repo").toList) (("link.ts").toList)
    (("/outside/secret.ts").toList) (by decide) (by decide) (by decide)
    (by decide) (by decide)]
  rfl

/-! ## Theorems about strategy creation without a backend client -/

/-- C4 (amended): requesting the backend-delegating `codex` strategy with
no backend client configured does not raise before file I/O.  The file is
resolved, found, statted and read first; the factory's missing-client error
is thrown only during per-file analysis, where `AnalysisOrchestrator.analyze`
catches it and converts it into a degraded per-file result with context
`Analysis failed: AIClient is required for Codex analysis`; the file is
reported as `reviewed`. -/
theorem claim4_theorem (fs : Str → Option Str) (eng : RegexEngine)
    (config : AnalysisConfig)
    (perform : Strategy → Str → Str → Bool → AnalysisResult)
    (repositoryPath filePath fullPath content : Str) (inc : Bool)
    (hres : safeResolve repositoryPath filePath = Except.ok fullPath)
    (hfs : fs fullPath = some content)
    (hsize : utf8ByteLength content ≤ 1048576)
    (hsuit : FileSuitabilityChecker.check eng config filePath content
      = ⟨true, none⟩) :
    reviewFile fs eng config perform (("codex").toList) none
        repositoryPath filePath inc
      = (⟨filePath, ReviewStatus.reviewed, none,
          some (degradedResult (("AIClient is required for Codex analysis").toList))⟩,
         [FsEvent.existsEv fullPath, FsEvent.statEv fullPath,
          FsEvent.readEv fullPath, FsEvent.analyzeEv filePath]) := by
  simp only [reviewFile, hres, hfs]
  rw [if_neg (by omega)]
  rw [hsuit]
  rw [if_neg (by simp)]
  rfl

/-- Witness for C4: a concrete one-file repository run with `codex` and no
client reads the file and reports it reviewed with the degraded analysis. -/
theorem claim4_witness :
    reviewFile
      (fun p => if p = ("/repo/a.ts").toList then some (("let x = 1").toList) else none)
      ⟨fun _ _ => false, fun _ _ => 0⟩
      ⟨1048576, 10000, 1000, 100, 4, [(".ts").toList], []⟩
      (fun _ _ _ _ => degradedResult []) (("codex").toList) none
      (("/repo").toList) (("a.ts").toList) true
    = (⟨("a.ts").toList, ReviewStatus.reviewed, none,
        some (degradedResult (("AIClient is required for Codex analysis").toList))⟩,
       [FsEvent.existsEv (("/repo/a.ts").toList),
        FsEvent.statEv (("/repo/a.ts").toList),
        FsEvent.readEv (("/repo/a.ts").toList),
        FsEvent.analyzeEv (("a.ts").toList)]) := by
  exact claim4_theorem
    (fun p => if p = ("/repo/a.ts").toList then some (("let x = 1").toList) else none)
    ⟨fun _ _ => false, fun _ _ => 0⟩
    ⟨1048576, 10000, 1000, 100, 4, [(".ts").toList], []⟩
    (fun _ _ _ _ => degradedResult []) (("/repo").toList) (("a.ts").toList)
    (("/repo/a.ts").toList) (("let x = 1").toList) true
    (by rfl) (by rfl) (by decide) (by decide)

/-- Counterexample to C4 as stated: with `codex` requested and no backend
client, `AnalysisOrchestrator.analyze` returns normally with a degraded
per-file result (no configuration error is raised), and a `reviewFile` run
reads the file before the factory error is even triggered. -/
theorem claim4_counterexample :
    orchestratorAnalyze (fun _ _ _ _ => degradedResult []) (("codex").toList)
        none (("a.ts").toList) (("let x = 1").toList) true
      = degradedResult (("AIClient is required for Codex analysis").toList)
    ∧ (reviewFile
        (fun p => if p = ("/repo/a.ts").toList then some (("let x = 1").toList) else none)
        ⟨fun _ _ => false, fun _ _ => 0⟩
        ⟨1048576, 10000, 1000, 100, 4, [(".ts").toList], []⟩
        (fun _ _ _ _ => degradedResult []) (("codex").toList) none
        (("/repo").toList) (("a.ts").toList) true).2
      = [FsEvent.existsEv (("/repo/a.ts").toList),
         FsEvent.statEv (("/repo/a.ts").toList),
         FsEvent.readEv (("/repo/a.ts").toList),
         FsEvent.analyzeEv (("a.ts").toList)]
    ∧ (reviewFile
        (fun p => if p = ("/repo/a.ts").toList then some (("let x = 1").toList) else none)
        ⟨fun _ _ => false, fun _ _ => 0⟩
        ⟨1048576, 10000, 1000, 100, 4, [(".ts").toList], []⟩
        (fun _ _ _ _ => degradedResult []) (("codex").toList) none
        (("/repo").toList) (("a.ts").toList) true).1.status
      = ReviewStatus.reviewed := by
  exact ⟨rfl, rfl, rfl⟩

end CodeReview
